import Mathlib

/-!
Verification of the address-range aggregation and exclusion engine of the
blocklist importer scripts (`import-blocklists.py` and `cs-import.py`).

The scripts delegate all address algebra to CPython's `ipaddress` module
(the environment ships CPython 3.11, whose `ipaddress.py` is the reference
for every embedded stdlib function).  We embed:

  * the data model of `IPv4Network`/`IPv6Network` objects (a `Network` is an
    address family, a canonical base address and a prefix length);
  * the classifier `is_safe_ip` together with the CPython 3.11 IPv4 registry
    constants it consults;
  * `ipaddress.collapse_addresses` (including `_find_address_range`,
    `summarize_address_range`, `_count_righthand_zero_bits` and
    `_collapse_addresses_internal`);
  * `overlaps`, `subnet_of` / `supernet_of`, `subnets`, `supernet`,
    `address_exclude`;
  * `optimize_and_filter` from both scripts;
  * the MIN_IPS safety brake of `main`;
  * the per-line parsing logic of `parse_ips` from both scripts.

Machine integers do not appear: CPython's `ipaddress` works with unbounded
Python ints masked to the family's width, which we model directly with `Nat`
and explicit powers of two.
-/

/-- An `IPv4Network`/`IPv6Network` object: `width` is the family's bit width
(32 for IPv4, 64 + 64 = 128 for IPv6; CPython stores the family as
`version`, which is in bijection with the width), `addr` is the integer
value of `network_address`, and `prefixlen` is the prefix length.  CPython
constructors always mask the host bits, so real objects satisfy
`Network.validB` below. -/
structure Network where
  width : Nat
  addr : Nat
  prefixlen : Nat
deriving DecidableEq, Repr

/-- `num_addresses`: the number of addresses covered by the network. -/
def Network.size (n : Network) : Nat := 2 ^ (n.width - n.prefixlen)

/-- Integer value of `broadcast_address` (network address with host bits set:
for canonical networks this is `addr + size - 1`). -/
def Network.broadcast (n : Network) : Nat := n.addr + n.size - 1

/-- Canonicity invariant maintained by every CPython constructor: the prefix
length fits the family, the address fits the width, and the host bits are
clear. -/
def Network.validB (n : Network) : Bool :=
  n.prefixlen ≤ n.width && n.addr < 2 ^ n.width &&
    n.addr % 2 ^ (n.width - n.prefixlen) == 0

/-- `a in n` for an address `a` of family width `w` (CPython
`_BaseNetwork.__contains__` — false across families, otherwise
`other & netmask == network_address`, which on canonical networks is the
interval test used here). -/
def Network.containsAddr (n : Network) (w a : Nat) : Bool :=
  n.width == w && n.addr ≤ a && a ≤ n.broadcast

/-- Membership of a bare integer address in a network of the same family
(family agreement is tracked by the surrounding statements). -/
def memB (a : Nat) (n : Network) : Bool :=
  n.addr ≤ a && a ≤ n.broadcast

/-- An address is covered by a list of networks. -/
def coveredB (xs : List Network) (a : Nat) : Bool := xs.any (memB a)

/-- CPython `_BaseNetwork.overlaps`: one of the two endpoints of either
network lies in the other.  Always false across families (because
`__contains__` is). -/
def Network.overlaps (self other : Network) : Bool :=
  other.containsAddr self.width self.addr ||
  other.containsAddr self.width self.broadcast ||
  self.containsAddr other.width other.addr ||
  self.containsAddr other.width other.broadcast

/-- CPython `_BaseNetwork._is_subnet_of a b` (`a.subnet_of(b)`):
`b.network_address <= a.network_address and
 b.broadcast_address >= a.broadcast_address`.
On a family mismatch CPython raises `TypeError`; the scripts only call this
after an `overlaps` check has ensured equal families, so the width guard
here is never the deciding factor on reachable paths. -/
def Network.subnet_of (self other : Network) : Bool :=
  self.width == other.width && other.addr ≤ self.addr &&
    self.broadcast ≤ other.broadcast

/-- CPython `supernet_of`: `self` is a supernet of `other`. -/
def Network.supernet_of (self other : Network) : Bool :=
  other.subnet_of self

/-- Helper to write IPv4 addresses in dotted-quad notation. -/
def ipv4 (a b c d : Nat) : Nat := ((a * 256 + b) * 256 + c) * 256 + d

/-- Helper to build an IPv4 network literal (already canonical). -/
def net4 (a b c d p : Nat) : Network := ⟨32, ipv4 a b c d, p⟩

/-! ### The classifier `is_safe_ip`

`is_safe_ip` consults the network-level properties `is_private`,
`is_loopback`, `is_link_local`, `is_multicast`, `is_reserved` of the
`ipaddress` module.  In CPython 3.11 each of these holds of a *network*
iff the corresponding per-address property holds of both the network
address and the broadcast address; the per-address properties are
membership in fixed registry networks.  All classifier claims concern IPv4
networks, so the IPv6 registry constants are not reproduced here and every
theorem about `is_safe_ip` restricts to `width = 32`. -/

/-- CPython 3.11 `_IPv4Constants._private_networks`. -/
def ipv4PrivateNetworks : List Network :=
  [ net4 0 0 0 0 8,
    net4 10 0 0 0 8,
    net4 127 0 0 0 8,
    net4 169 254 0 0 16,
    net4 172 16 0 0 12,
    net4 192 0 0 0 29,
    net4 192 0 0 170 31,
    net4 192 0 2 0 24,
    net4 192 168 0 0 16,
    net4 198 18 0 0 15,
    net4 198 51 100 0 24,
    net4 203 0 113 0 24,
    net4 240 0 0 0 4,
    net4 255 255 255 255 32 ]

/-- `_IPv4Constants._loopback_network`. -/
def ipv4LoopbackNetwork : Network := net4 127 0 0 0 8

/-- `_IPv4Constants._linklocal_network`. -/
def ipv4LinkLocalNetwork : Network := net4 169 254 0 0 16

/-- `_IPv4Constants._multicast_network`. -/
def ipv4MulticastNetwork : Network := net4 224 0 0 0 4

/-- `_IPv4Constants._reserved_network`. -/
def ipv4ReservedNetwork : Network := net4 240 0 0 0 4

/-- `IPv4Address.is_private`: membership in any entry of
`_private_networks`. -/
def addressIsPrivate (a : Nat) : Bool :=
  ipv4PrivateNetworks.any (fun p => p.containsAddr 32 a)

/-- `_BaseNetwork.is_private` (CPython 3.11): some single private registry
network contains both endpoints. -/
def Network.is_private (n : Network) : Bool :=
  ipv4PrivateNetworks.any (fun p =>
    p.containsAddr 32 n.addr && p.containsAddr 32 n.broadcast)

/-- `_BaseNetwork.is_loopback`. -/
def Network.is_loopback (n : Network) : Bool :=
  ipv4LoopbackNetwork.containsAddr 32 n.addr &&
    ipv4LoopbackNetwork.containsAddr 32 n.broadcast

/-- `_BaseNetwork.is_link_local`. -/
def Network.is_link_local (n : Network) : Bool :=
  ipv4LinkLocalNetwork.containsAddr 32 n.addr &&
    ipv4LinkLocalNetwork.containsAddr 32 n.broadcast

/-- `_BaseNetwork.is_multicast`. -/
def Network.is_multicast (n : Network) : Bool :=
  ipv4MulticastNetwork.containsAddr 32 n.addr &&
    ipv4MulticastNetwork.containsAddr 32 n.broadcast

/-- `_BaseNetwork.is_reserved`. -/
def Network.is_reserved (n : Network) : Bool :=
  ipv4ReservedNetwork.containsAddr 32 n.addr &&
    ipv4ReservedNetwork.containsAddr 32 n.broadcast

/-- `str(net).startswith('0.')` for an `IPv4Network`: `str` renders the first
octet (`addr >> 24`) in decimal without leading zeros, so the string starts
with `"0."` exactly when that octet is zero. -/
def startsWithZeroDot (n : Network) : Bool :=
  n.width == 32 && n.addr / 2 ^ 24 == 0

/-- `is_safe_ip` (identical in both scripts): reject private, loopback,
link-local, multicast and reserved networks, and IPv4 networks whose
textual form starts with `"0."`; accept everything else. -/
def is_safe_ip (net : Network) : Bool :=
  if net.is_private then false
  else if net.is_loopback then false
  else if net.is_link_local then false
  else if net.is_multicast then false
  else if net.is_reserved then false
  else if startsWithZeroDot net then false
  else true

/-! ### `ipaddress.collapse_addresses`

The scripts collapse each family's list with `ipaddress.collapse_addresses`.
Its helpers are embedded one-to-one from CPython 3.11 `ipaddress.py`.
Python's unbounded loops become structurally recursive functions with an
explicit fuel argument; each carries the exact bound under which the fuel
provably never runs out, so the `fuel = 0` fallback is unreachable on the
calls the theorems below are about. -/

/-- CPython `_BaseNetwork.supernet()` (with the default `prefixlen_diff=1`):
identity on a `/0`, otherwise drop one prefix bit and mask the address with
`netmask << 1`, i.e. clear the low `width - prefixlen + 1` bits. -/
def Network.supernet (n : Network) : Network :=
  if n.prefixlen = 0 then n
  else ⟨n.width, n.addr - n.addr % 2 ^ (n.width - (n.prefixlen - 1)), n.prefixlen - 1⟩

/-- First network yielded by CPython `subnets()` (callers below only reach it
when `prefixlen < width`; on `prefixlen = width`, `subnets()` instead raises
`ValueError` or yields `self`, handled at the call sites). -/
def Network.half0 (n : Network) : Network := ⟨n.width, n.addr, n.prefixlen + 1⟩

/-- Second network yielded by CPython `subnets()`: the upper half. -/
def Network.half1 (n : Network) : Network :=
  ⟨n.width, n.addr + 2 ^ (n.width - (n.prefixlen + 1)), n.prefixlen + 1⟩

/-- Association-list model of the Python dict `subnets` used by
`_collapse_addresses_internal` (`subnets.get`). -/
def lookupA (k : Network) : List (Network × Network) → Option Network
  | [] => none
  | (k', v) :: d => if k' = k then some v else lookupA k d

/-- `del subnets[supernet]` (keys are unique, so removing the first binding
removes the only one). -/
def eraseA (k : Network) : List (Network × Network) → List (Network × Network)
  | [] => []
  | (k', v) :: d => if k' = k then d else (k', v) :: eraseA k d

/-- `subnets.values()`. -/
def valuesA (d : List (Network × Network)) : List Network := d.map Prod.snd

/-- Fuel bound for the merge loop: each iteration strictly decreases
`Σ (prefixlen + 1)` over the work list plus `Σ prefixlen` over the stored
values. -/
def loopMeasure (toMerge : List Network) (d : List (Network × Network)) : Nat :=
  (toMerge.map (fun n => n.prefixlen + 1)).sum +
    ((valuesA d).map Network.prefixlen).sum

/-- The "first merge" loop of CPython `_collapse_addresses_internal`:
`while to_merge: net = to_merge.pop(); ...`.  The Python list pops and
appends at its tail; `toMerge` here is that list reversed, so `pop` is
pattern-matching on the head and `append` is cons.  New dict bindings are
consed rather than appended: the binding order is irrelevant because the
values are sorted before any further use. -/
def mergeLoop : Nat → List Network → List (Network × Network) → List (Network × Network)
  | 0, _, d => d
  | _ + 1, [], d => d
  | fuel + 1, net :: rest, d =>
    let sup := net.supernet
    match lookupA sup d with
    | none => mergeLoop fuel rest ((sup, net) :: d)
    | some existing =>
      if existing = net then mergeLoop fuel rest d
      else mergeLoop fuel (sup :: rest) (eraseA sup d)

/-- `sorted(...)` key for networks, CPython `_BaseNetwork.__lt__`: by
`network_address`, then by `netmask` (equivalently by prefix length, the
netmask being monotone in it). -/
def netLE (m n : Network) : Bool :=
  m.addr < n.addr || (m.addr == n.addr && m.prefixlen ≤ n.prefixlen)

def insertNet (n : Network) : List Network → List Network
  | [] => [n]
  | m :: rest => if netLE n m then n :: m :: rest else m :: insertNet n rest

/-- `sorted(subnets.values())`.  CPython uses a stable comparison sort with
`__lt__`; the lists sorted here are duplicate-free and single-family, where
`netLE` is total and antisymmetric, so every comparison sort returns the
same list and a structurally recursive insertion sort is an exact model. -/
def sortNets : List Network → List Network
  | [] => []
  | n :: rest => insertNet n (sortNets rest)

/-- The "skipping subsumed subnets" pass of `_collapse_addresses_internal`:
walk the sorted list, dropping a network whose broadcast does not exceed the
broadcast of the last emitted network. -/
def filterSubsumed : Option Network → List Network → List Network
  | _, [] => []
  | none, n :: rest => n :: filterSubsumed (some n) rest
  | some last, n :: rest =>
    if n.broadcast ≤ last.broadcast then filterSubsumed (some last) rest
    else n :: filterSubsumed (some n) rest

/-- CPython `_collapse_addresses_internal`. -/
def collapse_addresses_internal (addresses : List Network) : List Network :=
  filterSubsumed none
    (sortNets (valuesA (mergeLoop (loopMeasure addresses.reverse []) addresses.reverse [])))

/-- `min(bits, ctz number)` for `number > 0`, as computed by CPython
`_count_righthand_zero_bits` via `(~number & (number - 1)).bit_length()`;
the fuel `f` makes the recursion structural and `ctzNat f n = min f (ctz n)`
for `n > 0`. -/
def ctzNat : Nat → Nat → Nat
  | 0, _ => 0
  | f + 1, n => if n % 2 == 1 || n == 0 then 0 else ctzNat f (n / 2) + 1

/-- CPython `_count_righthand_zero_bits`. -/
def count_righthand_zero_bits (number bits : Nat) : Nat :=
  if number == 0 then bits else min bits (ctzNat bits number)

/-- Python `int.bit_length`. -/
def bitLength (n : Nat) : Nat := if n = 0 then 0 else Nat.log2 n + 1

/-- The `while first_int <= last_int` loop of CPython
`summarize_address_range`.  Each iteration advances `first` by at least one,
so fuel `last + 1 - first` suffices; the Python loop's overflow `break` is
subsumed by the guard once integers are unbounded. -/
def summarizeAux (w : Nat) : Nat → Nat → Nat → List Network
  | 0, _, _ => []
  | fuel + 1, first, last =>
    if first ≤ last then
      let nbits := min (count_righthand_zero_bits first w)
        (bitLength (last - first + 1) - 1)
      ⟨w, first, w - nbits⟩ :: summarizeAux w fuel (first + 2 ^ nbits) last
    else []

/-- CPython `summarize_address_range` on a family of width `w`. -/
def summarize_address_range (w first last : Nat) : List Network :=
  summarizeAux w (last + 1 - first) first last

/-- Inner loop of CPython `_find_address_range` (both branches set
`last = ip`; a new range starts when `ip` is not the successor of `last`). -/
def findRangesGo (first last : Nat) : List Nat → List (Nat × Nat)
  | [] => [(first, last)]
  | ip :: rest =>
    if ip = last + 1 then findRangesGo first ip rest
    else (first, last) :: findRangesGo ip ip rest

/-- CPython `_find_address_range` (only ever called on a nonempty list;
`[]` is mapped to `[]`, matching the `if ips:` guard at the call site). -/
def find_address_range : List Nat → List (Nat × Nat)
  | [] => []
  | a :: rest => findRangesGo a a rest

/-- Strictly sorted insertion without duplicates, for `sorted(set(ips))`. -/
def insertNatSet (a : Nat) : List Nat → List Nat
  | [] => [a]
  | b :: rest =>
    if a < b then a :: b :: rest
    else if a == b then b :: rest
    else b :: insertNatSet a rest

/-- `sorted(set(ips))`: the strictly increasing enumeration of the members. -/
def sortedSetOf : List Nat → List Nat
  | [] => []
  | a :: rest => insertNatSet a (sortedSetOf rest)

/-- CPython `collapse_addresses`, specialised to the scripts' usage: the
input is a list of single-family *network* objects of width `w` (never bare
addresses), so the `isinstance(ip, _BaseAddress)` arm is dead and the
version-mismatch `TypeError`s cannot fire.  Full-width networks are set
aside as integer addresses, deduplicated, sorted and summarized into
maximal blocks per consecutive run; everything is then handed to
`_collapse_addresses_internal`. -/
def collapse_addresses (w : Nat) (addresses : List Network) : List Network :=
  let ips := (addresses.filter (fun n => n.prefixlen == n.width)).map Network.addr
  let nets := addresses.filter (fun n => n.prefixlen != n.width)
  let addrs := (find_address_range (sortedSetOf ips)).flatMap
    (fun fl => summarize_address_range w fl.1 fl.2)
  collapse_addresses_internal (addrs ++ nets)

/-! ### `address_exclude` and `optimize_and_filter` -/

/-- The `while s1 != other and s2 != other` loop of CPython
`address_exclude`, yields included in order.  The loop runs at most
`other.prefixlen - self.prefixlen` times, so the fuel passed by
`address_exclude` provably suffices on canonical inputs.  The two branches
CPython cannot reach on canonical networks — the `AssertionError` arm and
`subnets()` overflowing the prefix length — are mapped to `[]`; both are
proved unreachable under the hypotheses of every theorem below. -/
def excludeLoop (other : Network) : Nat → Network → Network → List Network
  | 0, _, _ => []
  | fuel + 1, s1, s2 =>
    if s1 ≠ other ∧ s2 ≠ other then
      if other.subnet_of s1 then s2 :: excludeLoop other fuel s1.half0 s1.half1
      else if other.subnet_of s2 then s1 :: excludeLoop other fuel s2.half0 s2.half1
      else []
    else if s1 = other then [s2]
    else [s1]

/-- CPython `_BaseNetwork.address_exclude(self, other)`.  `none` is the
`ValueError` path that `optimize_and_filter` catches with `pass` (reached
when `other` is not contained in `self`, or — via `subnets()` — when `self`
is a full-width network; the family-mismatch `TypeError` is also folded into
`none`, but its call sites are unreachable because `overlaps` is checked
first).  The re-canonicalisation of `other` is the identity on canonical
networks. -/
def Network.address_exclude (self other : Network) : Option (List Network) :=
  if self.width ≠ other.width then none
  else if ¬ other.subnet_of self then none
  else if other = self then some []
  else if self.width < self.prefixlen + 1 then none
  else some (excludeLoop other (other.prefixlen + 1) self.half0 self.half1)

/-- Body of the `for candidate in candidates` loop of `optimize_and_filter`
(identical in both scripts): keep a candidate that does not overlap the
whitelist network, drop it when the whitelist network covers it, otherwise
replace it by `address_exclude`'s fragments (`except ValueError: pass`
drops it). -/
def excludeCandidate (wl candidate : Network) : List Network :=
  if ¬ candidate.overlaps wl then [candidate]
  else if wl.supernet_of candidate || wl == candidate then []
  else match candidate.address_exclude wl with
    | some subnets => subnets
    | none => []

/-- One pass of the `for wl in whitelist_nets` loop: rebuild the candidate
list. -/
def stepWl (candidates : List Network) (wl : Network) : List Network :=
  candidates.flatMap (excludeCandidate wl)

/-- The whitelist loop for one blocklist network, starting from
`candidates = [net]`.  The scripts' early `break` when `candidates` is
empty is behaviourally the identity (every later pass maps `[]` to `[]`),
so the plain fold is an exact model. -/
def processNet (whitelist_nets : List Network) (net : Network) : List Network :=
  whitelist_nets.foldl stepWl [net]

/-- `optimize_and_filter` from `import-blocklists.py` (also the body of
`process_list` in `cs-import.py`), acting on one family of width `w`:
collapse, subtract every whitelist network from every collapsed network,
collect the surviving fragments, and collapse again.  The whitelist
argument is the already-parsed list of `ip_network(w, strict=False)`
objects (possibly of both families — entries of the other family do not
overlap anything and are skipped by the first branch). -/
def optimize_and_filter (w : Nat) (networks whitelist_nets : List Network) : List Network :=
  collapse_addresses w
    (((collapse_addresses w networks).map (processNet whitelist_nets)).flatten)

/-- `process_list` from `cs-import.py`: identical to `optimize_and_filter`
except for the shortcut on an empty input list. -/
def process_list (w : Nat) (nets wl_nets : List Network) : List Network :=
  if nets = [] then [] else optimize_and_filter w nets wl_nets

/-- `optimize_and_filter` from `cs-import.py`: split the input and the
whitelist by family (`version == 4` iff width 32) and process each family
with `process_list`. -/
def optimize_and_filter_cs (networks whitelist_nets : List Network) : List Network :=
  let v4_nets := networks.filter (fun n => n.width == 32)
  let v6_nets := networks.filter (fun n => n.width == 128)
  let whitelist_v4 := whitelist_nets.filter (fun n => n.width == 32)
  let whitelist_v6 := whitelist_nets.filter (fun n => n.width == 128)
  process_list 32 v4_nets whitelist_v4 ++ process_list 128 v6_nets whitelist_v6

/-! ### The MIN_IPS safety brake -/

/-- `MIN_IPS` (both scripts). -/
def MIN_IPS : Nat := 200

/-- Outcome of the tail of `main` in both scripts: either the run aborts
with the safety-brake error (`sys.exit(1)` before anything is handed to
nftables / CrowdSec, so prior state is untouched), or the cleaned sets are
passed on. -/
inductive PipelineResult where
  | rejectedBelowThreshold (found required : Nat)
  | accepted (v4 v6 : List Network)
deriving DecidableEq, Repr

/-- The safety check of `main`: `total_ips = len(v4_clean) + len(v6_clean);
if total_ips < MIN_IPS: ... sys.exit(1)` (in `cs-import.py` the two cleaned
family lists arrive concatenated, so its `len(clean_nets)` is the same
total). -/
def safetyBrake (v4_clean v6_clean : List Network) : PipelineResult :=
  if v4_clean.length + v6_clean.length < MIN_IPS then
    .rejectedBelowThreshold (v4_clean.length + v6_clean.length) MIN_IPS
  else .accepted v4_clean v6_clean

/-! ### Per-line parsing (`parse_ips`)

Lines are modelled as `List Char`.  The claims about the parser concern the
tokenization of IPv4-shaped lines, so `ip_network`'s string parsing is
embedded for IPv4 only (`ip_network_v4`); an IPv6 literal simply fails this
parser, which on the theorems' lines is never the deciding branch.  Python's
`str.split()`/`str.isdigit()`/regex `\w` recognise some non-ASCII
whitespace/digit/word characters; the embedding is exact on ASCII, which
covers all feed formats the claims describe. -/

/-- `str.split()` separator class (ASCII part). -/
def isWsC (c : Char) : Bool :=
  c == ' ' || c == '\t' || c == '\n' || c == '\r' ||
    c == Char.ofNat 11 || c == Char.ofNat 12

def isDigitC (c : Char) : Bool := '0' ≤ c && c ≤ '9'

/-- Regex `\w` (ASCII part), for `\b` boundaries. -/
def isWordC (c : Char) : Bool :=
  isDigitC c || ('a' ≤ c && c ≤ 'z') || ('A' ≤ c && c ≤ 'Z') || c == '_'

/-- `str.strip()`. -/
def pyStrip (s : List Char) : List Char :=
  ((s.dropWhile isWsC).reverse.dropWhile isWsC).reverse

/-- `line.split(sep, 1)[0]` as used for the `#` and `;` comment cuts (equal
to the whole line when the separator does not occur). -/
def cutAt (sep : Char) (s : List Char) : List Char := s.takeWhile (· ≠ sep)

/-- Accumulating worker for `str.split()` (no separator argument: split on
whitespace runs, no empty tokens). -/
def splitWsAux : List Char → List Char → List (List Char)
  | acc, [] => if acc = [] then [] else [acc.reverse]
  | acc, c :: rest =>
    if isWsC c then
      if acc = [] then splitWsAux [] rest else acc.reverse :: splitWsAux [] rest
    else splitWsAux (c :: acc) rest

/-- `line.split()`. -/
def pySplitWs (s : List Char) : List (List Char) := splitWsAux [] s

/-- Length of the leading run of decimal digits. -/
def digitRunLen : List Char → Nat
  | [] => 0
  | c :: rest => if isDigitC c then digitRunLen rest + 1 else 0

/-- `int(s)` on a string of decimal digits. -/
def natOfDigits (s : List Char) : Nat :=
  s.foldl (fun n c => n * 10 + (c.toNat - 48)) 0

/-- CPython `_BaseV4._parse_octet`: nonempty, decimal digits only, at most
three characters, no leading zero (except `"0"` itself), value at most 255. -/
def parse_octet (s : List Char) : Option Nat :=
  if s ≠ [] ∧ s.all isDigitC ∧ s.length ≤ 3 ∧ (s = ['0'] ∨ s.head? ≠ some '0') ∧
      natOfDigits s ≤ 255 then
    some (natOfDigits s)
  else none

/-- Full split on one character (CPython `str.split(sep)`), keeping empty
pieces. -/
def splitOnC (sep : Char) : List Char → List (List Char)
  | [] => [[]]
  | c :: rest =>
    if c = sep then [] :: splitOnC sep rest
    else match splitOnC sep rest with
      | t :: ts => (c :: t) :: ts
      | [] => [[c]]

/-- CPython `IPv4Address(str)` / `_ip_int_from_string`: exactly four octets
joined by dots. -/
def parseIPv4Addr (s : List Char) : Option Nat :=
  match splitOnC '.' s with
  | [o1, o2, o3, o4] => do
    let a ← parse_octet o1
    let b ← parse_octet o2
    let c ← parse_octet o3
    let d ← parse_octet o4
    pure (ipv4 a b c d)
  | _ => none

/-- CPython `_prefix_from_prefix_string`, numeric form: digits only and at
most the maximum prefix length (the netmask/hostmask dotted-quad forms also
accepted by CPython never appear in the feeds the claims describe). -/
def parsePlen (maxLen : Nat) (s : List Char) : Option Nat :=
  if s ≠ [] ∧ s.all isDigitC ∧ natOfDigits s ≤ maxLen then some (natOfDigits s)
  else none

/-- `ipaddress.ip_network(token, strict=False)` for IPv4 text: an optional
`/prefix` after the address (one slash at most); host bits are masked, not
rejected. -/
def ip_network_v4 (s : List Char) : Option Network :=
  match splitOnC '/' s with
  | [a] => (parseIPv4Addr a).map (fun A => ⟨32, A, 32⟩)
  | [a, p] =>
    match parseIPv4Addr a, parsePlen 32 p with
    | some A, some pl => some ⟨32, A - A % 2 ^ (32 - pl), pl⟩
    | _, _ => none
  | _ => none

/-! The fallback scan `re.compile(r'\b(?:\d{1,3}\.){3}\d{1,3}\b').search`.
For this particular pattern the backtracking search is deterministic: a
group `\d{1,3}\.` can only match the maximal digit run (of length 1–3)
followed by a literal dot — shortening the run leaves a digit, not a dot,
under the cursor — and likewise the final `\d{1,3}\b` can only take the
whole run (of length 1–3), since stopping earlier puts a digit (a word
character) after the match.  `search` returns the leftmost match. -/

/-- Match `(?:\d{1,3}\.){3}\d{1,3}\b` at the head of `s` (the leading `\b`
is checked by the caller), returning the matched text. -/
def matchQuadAt (s : List Char) : Option (List Char) :=
  let g := fun (t : List Char) =>
    let k := digitRunLen t
    if 1 ≤ k ∧ k ≤ 3 then
      match t.drop k with
      | '.' :: rest => some (t.take k ++ ['.'], rest)
      | _ => none
    else none
  match g s with
  | none => none
  | some (g1, r1) =>
    match g r1 with
    | none => none
    | some (g2, r2) =>
      match g r2 with
      | none => none
      | some (g3, r3) =>
        let k := digitRunLen r3
        if 1 ≤ k ∧ k ≤ 3 then
          match (r3.drop k).head? with
          | some c => if isWordC c then none else some (g1 ++ g2 ++ g3 ++ r3.take k)
          | none => some (g1 ++ g2 ++ g3 ++ r3.take k)
        else none

/-- Leftmost-match scan; `prev` is the character before the current
position, for the leading `\b`. -/
def searchQuadAux : Option Char → List Char → Option (List Char)
  | _, [] => none
  | prev, c :: rest =>
    let boundary := match prev with
      | none => true
      | some p => !isWordC p
    match if boundary then matchQuadAt (c :: rest) else none with
    | some m => some m
    | none => searchQuadAux (some c) rest

/-- `ipv4_pattern.search(line)`, returning `match.group()`. -/
def searchQuad (s : List Char) : Option (List Char) := searchQuadAux none s

/-- The comment-stripping prologue of the per-line loop in both scripts:
`strip`, cut at `#`, cut at `;`, `strip` again. -/
def cleanLine (rawLine : List Char) : List Char :=
  pyStrip (cutAt ';' (cutAt '#' (pyStrip rawLine)))

/-- The "standard parsing" of one cleaned line (identical in both scripts):
try `ip_network` on the first whitespace token, else scan the whole line
for the first dotted-quad and try that (the cleaned line is nonempty at the
call sites, so `split()[0]` exists). -/
def parse_line_std (line : List Char) : Option Network :=
  match (pySplitWs line).head? with
  | none => none
  | some token =>
    match ip_network_v4 token with
    | some net => some net
    | none =>
      match searchQuad line with
      | some quad => ip_network_v4 quad
      | none => none

/-- The DShield arm of `parse_ips` in `cs-import.py`: with at least three
whitespace columns whose third is all digits (`str.isdigit`) with value at
most 32, build `ip_network(f"{parts[0]}/{prefix}", strict=False)` — the
network from column 1 with the prefix from column 3 (column 2 ignored). -/
def dshieldNet (parts : List (List Char)) : Option Network :=
  match parts with
  | p0 :: _ :: p2 :: _ =>
    if p2 ≠ [] ∧ p2.all isDigitC then
      let pl := natOfDigits p2
      if pl ≤ 32 then (parseIPv4Addr p0).map (fun A => ⟨32, A - A % 2 ^ (32 - pl), pl⟩)
      else none
    else none
  | _ => none

/-- One line of `parse_ips` in `import-blocklists.py` (no source-specific
handling; `none` is the silently dropped `ParseSkip`). -/
def parse_line_ib (rawLine : List Char) : Option Network :=
  let line := cleanLine rawLine
  if line = [] then none else parse_line_std line

/-- One line of `parse_ips(name, text)` in `cs-import.py`: the DShield arm
first (only for the DShield source), then the standard parsing. -/
def parse_line_cs (nameIsDShield : Bool) (rawLine : List Char) : Option Network :=
  let line := cleanLine rawLine
  if line = [] then none
  else
    match (if nameIsDShield then dshieldNet (pySplitWs line) else none) with
    | some net => some net
    | none => parse_line_std line

/-! ### Specification-level predicates used by the theorems -/

/-- A canonical network of family width `w` (what every CPython constructor
produces). -/
def VW (w : Nat) (n : Network) : Prop := n.validB = true ∧ n.width = w

/-- All members canonical of family width `w`. -/
def allVW (w : Nat) (l : List Network) : Prop := ∀ n ∈ l, VW w n

/-- Address-space inclusion of networks. -/
def SubsetN (b c : Network) : Prop := ∀ y, memB y b = true → memB y c = true

/-- Address-space disjointness of networks. -/
def DisjointN (b c : Network) : Prop := ∀ y, memB y b = true → memB y c = false

/-- `b` is a *maximal block* of the address set `S` (within family width
`w`): a canonical network whose addresses all lie in `S` and that cannot be
doubled — it is the whole space, or its parent block leaks outside `S`.
The collapsed form of a set is exactly the sorted list of its maximal
blocks. -/
def maxBlock (w : Nat) (S : Nat → Bool) (b : Network) : Prop :=
  VW w b ∧ (∀ a, memB a b = true → S a = true) ∧
    (b.prefixlen = 0 ∨ ∃ a, memB a b.supernet = true ∧ S a = false)

instance (w : Nat) (n : Network) : Decidable (VW w n) :=
  decidable_of_iff (n.validB = true ∧ n.width = w) Iff.rfl

instance (w : Nat) (l : List Network) : Decidable (allVW w l) :=
  decidable_of_iff (∀ n ∈ l, VW w n) Iff.rfl

/-- All registry networks `is_safe_ip` consults through the five network
properties (the `"0."` test is separate). -/
def rejectRegistry : List Network :=
  ipv4PrivateNetworks ++
    [ipv4LoopbackNetwork, ipv4LinkLocalNetwork,
     ipv4MulticastNetwork, ipv4ReservedNetwork]

/-- C6: the Address Classifier rejects `10.0.0.0/8`, `127.0.0.1/32`,
`169.254.0.0/16`, `224.0.0.0/4` and `0.5.5.5/32`, and accepts `1.2.3.4/32`
and `8.8.8.8/32`. -/
theorem C6_classifier_examples :
    is_safe_ip (net4 10 0 0 0 8) = false ∧
    is_safe_ip (net4 127 0 0 1 32) = false ∧
    is_safe_ip (net4 169 254 0 0 16) = false ∧
    is_safe_ip (net4 224 0 0 0 4) = false ∧
    is_safe_ip (net4 0 5 5 5 32) = false ∧
    is_safe_ip (net4 1 2 3 4 32) = true ∧
    is_safe_ip (net4 8 8 8 8 32) = true := by
  decide

/-! ## Basic facts about canonical networks -/

theorem valid_iff (n : Network) : n.validB = true ↔
    n.prefixlen ≤ n.width ∧ n.addr < 2 ^ n.width ∧
      n.addr % 2 ^ (n.width - n.prefixlen) = 0 := by
  simp [Network.validB, and_assoc]

theorem memB_iff (a : Nat) (n : Network) :
    memB a n = true ↔ n.addr ≤ a ∧ a ≤ n.broadcast := by
  simp [memB]

theorem size_pos (n : Network) : 0 < n.size := Nat.pos_pow_of_pos _ (by omega)

theorem broadcast_def (n : Network) : n.broadcast = n.addr + n.size - 1 := rfl

theorem addr_le_broadcast (n : Network) : n.addr ≤ n.broadcast := by
  have := size_pos n; rw [broadcast_def]; omega

theorem memB_iff_lt (a : Nat) (n : Network) :
    memB a n = true ↔ n.addr ≤ a ∧ a < n.addr + n.size := by
  have := size_pos n; rw [memB_iff, broadcast_def]; omega

theorem memB_addr (n : Network) : memB n.addr n = true := by
  rw [memB_iff]; exact ⟨le_refl _, addr_le_broadcast n⟩

theorem memB_broadcast (n : Network) : memB n.broadcast n = true := by
  rw [memB_iff]; exact ⟨addr_le_broadcast n, le_refl _⟩

theorem coveredB_iff (xs : List Network) (a : Nat) :
    coveredB xs a = true ↔ ∃ n ∈ xs, memB a n = true := by
  simp [coveredB, List.any_eq_true]

theorem coveredB_append (xs ys : List Network) (a : Nat) :
    coveredB (xs ++ ys) a = (coveredB xs a || coveredB ys a) := by
  simp [coveredB, List.any_append]

theorem coveredB_cons (n : Network) (xs : List Network) (a : Nat) :
    coveredB (n :: xs) a = (memB a n || coveredB xs a) := by
  simp [coveredB]

theorem VW.width_eq {w : Nat} {n : Network} (h : VW w n) : n.width = w := h.2

theorem VW.plen_le {w : Nat} {n : Network} (h : VW w n) : n.prefixlen ≤ w := by
  have := (valid_iff n).mp h.1; rw [h.2] at this; exact this.1

theorem VW.addr_lt {w : Nat} {n : Network} (h : VW w n) : n.addr < 2 ^ w := by
  have := (valid_iff n).mp h.1; rw [h.2] at this; exact this.2.1

theorem VW.size_eq {w : Nat} {n : Network} (h : VW w n) :
    n.size = 2 ^ (w - n.prefixlen) := by
  rw [Network.size, h.2]

theorem VW.dvd_addr {w : Nat} {n : Network} (h : VW w n) :
    2 ^ (w - n.prefixlen) ∣ n.addr := by
  have := (valid_iff n).mp h.1; rw [h.2] at this
  exact Nat.dvd_of_mod_eq_zero this.2.2

/-- Two distinct multiples of `s` are at least `s` apart. -/
theorem add_le_of_dvd_of_lt {s a b : Nat} (ha : s ∣ a) (hb : s ∣ b)
    (h : a < b) : a + s ≤ b := by
  obtain ⟨x, rfl⟩ := ha
  obtain ⟨y, rfl⟩ := hb
  have hxy : x < y := by
    by_contra hc
    exact absurd (Nat.mul_le_mul_left s (by omega : y ≤ x)) (by omega)
  calc s * x + s = s * (x + 1) := by ring
  _ ≤ s * y := Nat.mul_le_mul_left s (by omega)

theorem VW.broadcast_lt {w : Nat} {n : Network} (h : VW w n) :
    n.broadcast < 2 ^ w := by
  have hd : 2 ^ (w - n.prefixlen) ∣ 2 ^ w := Nat.pow_dvd_pow 2 (Nat.sub_le _ _)
  have hle := add_le_of_dvd_of_lt h.dvd_addr hd h.addr_lt
  have hs : 0 < 2 ^ (w - n.prefixlen) := Nat.pos_pow_of_pos _ (by omega)
  rw [broadcast_def, h.size_eq]
  omega

/-- Core dyadic alignment fact: if two aligned power-of-two intervals share a
point and the first is no larger, it is contained in the second. -/
theorem dyadic_nested {k j a b x : Nat} (ha : 2 ^ k ∣ a) (hb : 2 ^ j ∣ b)
    (hkj : k ≤ j) (hx1 : a ≤ x) (hx2 : x < a + 2 ^ k) (hy1 : b ≤ x)
    (hy2 : x < b + 2 ^ j) : b ≤ a ∧ a + 2 ^ k ≤ b + 2 ^ j := by
  have hkb : 2 ^ k ∣ b := dvd_trans (Nat.pow_dvd_pow 2 hkj) hb
  constructor
  · by_contra hc
    have := add_le_of_dvd_of_lt ha hkb (by omega : a < b)
    omega
  · by_contra hc
    have hkj2 : (2 ^ k : Nat) ∣ 2 ^ j := Nat.pow_dvd_pow 2 hkj
    have hd : 2 ^ k ∣ b + 2 ^ j := Dvd.dvd.add hkb hkj2
    have hd2 : 2 ^ k ∣ a + 2 ^ k := Dvd.dvd.add ha dvd_rfl
    have := add_le_of_dvd_of_lt hd hd2 (by omega : b + 2 ^ j < a + 2 ^ k)
    omega

theorem subsetN_iff (b c : Network) :
    SubsetN b c ↔ c.addr ≤ b.addr ∧ b.broadcast ≤ c.broadcast := by
  constructor
  · intro h
    have h1 := (memB_iff _ _).mp (h _ (memB_addr b))
    have h2 := (memB_iff _ _).mp (h _ (memB_broadcast b))
    omega
  · intro h y hy
    rw [memB_iff] at hy ⊢
    omega

/-- Laminarity: a canonical network meeting a coarser canonical network of
the same family is contained in it. -/
theorem subset_of_common {w : Nat} {b c : Network} (hb : VW w b) (hc : VW w c)
    (hp : c.prefixlen ≤ b.prefixlen) {x : Nat} (hxb : memB x b = true)
    (hxc : memB x c = true) : SubsetN b c := by
  rw [memB_iff_lt] at hxb hxc
  have h := dyadic_nested (k := w - b.prefixlen) (j := w - c.prefixlen)
    hb.dvd_addr hc.dvd_addr (by have := hb.plen_le; omega)
    hxb.1 (by rw [← hb.size_eq]; omega) hxc.1 (by rw [← hc.size_eq]; omega)
  rw [← hb.size_eq, ← hc.size_eq] at h
  rw [subsetN_iff, broadcast_def, broadcast_def]
  have := size_pos b; have := size_pos c
  omega

theorem nested_or_disjoint {w : Nat} {b c : Network} (hb : VW w b)
    (hc : VW w c) {x : Nat} (hxb : memB x b = true) (hxc : memB x c = true) :
    SubsetN b c ∨ SubsetN c b := by
  rcases le_total c.prefixlen b.prefixlen with h | h
  · exact Or.inl (subset_of_common hb hc h hxb hxc)
  · exact Or.inr (subset_of_common hc hb h hxc hxb)

theorem eq_of_same_interval {w : Nat} {b c : Network} (hb : VW w b)
    (hc : VW w c) (ha : b.addr = c.addr) (hbr : b.broadcast = c.broadcast) :
    b = c := by
  have hsz : b.size = c.size := by
    have := size_pos b; have := size_pos c
    rw [broadcast_def, broadcast_def] at hbr; omega
  have hp : b.prefixlen = c.prefixlen := by
    rw [hb.size_eq, hc.size_eq] at hsz
    have := Nat.pow_right_injective (le_refl 2) hsz
    have := hb.plen_le; have := hc.plen_le
    omega
  have hw : b.width = c.width := by rw [hb.width_eq, hc.width_eq]
  cases b; cases c
  simp only [Network.mk.injEq]
  exact ⟨hw, ha, hp⟩

theorem subsetN_size_le {b c : Network} (h : SubsetN b c) : b.size ≤ c.size := by
  rw [subsetN_iff] at h
  rw [broadcast_def, broadcast_def] at h
  have := size_pos b; have := size_pos c
  omega

theorem plen_lt_of_ssub {w : Nat} {b c : Network} (hb : VW w b) (hc : VW w c)
    (hsub : SubsetN b c) (hne : b ≠ c) : c.prefixlen < b.prefixlen := by
  have hsz := subsetN_size_le hsub
  rw [hb.size_eq, hc.size_eq] at hsz
  have hple : w - b.prefixlen ≤ w - c.prefixlen :=
    (Nat.pow_le_pow_iff_right (le_refl 2)).mp hsz
  have h1 := hb.plen_le; have h2 := hc.plen_le
  rcases Nat.lt_or_ge c.prefixlen b.prefixlen with h | h
  · exact h
  · exfalso
    have hpe : b.prefixlen = c.prefixlen := by omega
    apply hne
    have hse : b.size = c.size := by rw [hb.size_eq, hc.size_eq, hpe]
    rw [subsetN_iff] at hsub
    apply eq_of_same_interval hb hc
    · rw [broadcast_def, broadcast_def] at hsub
      have := size_pos b; omega
    · rw [broadcast_def, broadcast_def] at hsub ⊢
      have := size_pos b; omega


/-! ## `supernet` and the two `subnets()` halves -/

theorem Network.eq_of_fields {a b : Network} (h1 : a.width = b.width)
    (h2 : a.addr = b.addr) (h3 : a.prefixlen = b.prefixlen) : a = b := by
  cases a; cases b
  simp only [Network.mk.injEq]
  exact ⟨h1, h2, h3⟩

theorem supernet_of_plen_zero {n : Network} (h : n.prefixlen = 0) :
    n.supernet = n := by
  simp [Network.supernet, h]

theorem supernet_width (n : Network) : n.supernet.width = n.width := by
  unfold Network.supernet
  split <;> rfl

theorem supernet_plen {n : Network} (hp : n.prefixlen ≠ 0) :
    n.supernet.prefixlen = n.prefixlen - 1 := by
  simp [Network.supernet, hp]

theorem supernet_addr {n : Network} (hp : n.prefixlen ≠ 0) :
    n.supernet.addr = n.addr - n.addr % 2 ^ (n.width - (n.prefixlen - 1)) := by
  simp [Network.supernet, hp]

/-- The parent block is twice as coarse, so a canonical address sits either
at its low half or at its high half. -/
theorem addr_mod_parent {w : Nat} {n : Network} (h : VW w n)
    (hp : n.prefixlen ≠ 0) :
    n.addr % 2 ^ (w - (n.prefixlen - 1)) = 0 ∨
      n.addr % 2 ^ (w - (n.prefixlen - 1)) = 2 ^ (w - n.prefixlen) := by
  have hpw := h.plen_le
  have he : w - (n.prefixlen - 1) = (w - n.prefixlen) + 1 := by omega
  obtain ⟨q, hq⟩ := h.dvd_addr
  rw [he, hq, pow_succ, Nat.mul_mod_mul_left]
  rcases Nat.mod_two_eq_zero_or_one q with h2 | h2 <;> rw [h2] <;> simp

theorem supernet_VW {w : Nat} {n : Network} (h : VW w n) : VW w n.supernet := by
  by_cases hp : n.prefixlen = 0
  · rw [supernet_of_plen_zero hp]; exact h
  · have hw : n.supernet.width = w := by rw [supernet_width, h.width_eq]
    refine ⟨(valid_iff _).mpr ?_, hw⟩
    rw [hw, supernet_plen hp, supernet_addr hp, h.width_eq]
    have hpw := h.plen_le
    have haw := h.addr_lt
    have hdm := Nat.div_add_mod n.addr (2 ^ (w - (n.prefixlen - 1)))
    refine ⟨by omega, by omega, ?_⟩
    have he : n.addr - n.addr % 2 ^ (w - (n.prefixlen - 1)) =
        2 ^ (w - (n.prefixlen - 1)) * (n.addr / 2 ^ (w - (n.prefixlen - 1))) := by
      omega
    rw [he, Nat.mul_mod_right]

theorem subsetN_supernet_self {w : Nat} {n : Network} (h : VW w n) :
    SubsetN n n.supernet := by
  by_cases hp : n.prefixlen = 0
  · rw [supernet_of_plen_zero hp]; exact fun y hy => hy
  · have hpw := h.plen_le
    have ha' : n.supernet.addr =
        n.addr - n.addr % 2 ^ (n.width - (n.prefixlen - 1)) := supernet_addr hp
    rw [h.width_eq] at ha'
    have hsz : n.supernet.size = 2 ^ ((w - n.prefixlen) + 1) := by
      rw [(supernet_VW h).size_eq, supernet_plen hp]
      congr 1
      omega
    have hmod := addr_mod_parent h hp
    have hs : (0:Nat) < 2 ^ (w - n.prefixlen) := Nat.pos_pow_of_pos _ (by omega)
    have hml : n.addr % 2 ^ (w - (n.prefixlen - 1)) ≤ n.addr := Nat.mod_le _ _
    rw [subsetN_iff, broadcast_def, broadcast_def, hsz, h.size_eq, ha', pow_succ]
    omega

theorem mem_supernet_of_mem {w : Nat} {n : Network} (h : VW w n) {a : Nat}
    (ha : memB a n = true) : memB a n.supernet = true :=
  subsetN_supernet_self h a ha

/-- A network that is a proper child of its `supernet` key is one of the two
halves of that key. -/
theorem eq_half_of_supernet {w : Nat} {n k : Network} (h : VW w n)
    (hk : n.supernet = k) (hne : n ≠ k) :
    n.prefixlen = k.prefixlen + 1 ∧ (n = k.half0 ∨ n = k.half1) := by
  have hp : n.prefixlen ≠ 0 := by
    intro h0
    exact hne (by rw [← hk, supernet_of_plen_zero h0])
  have hpw := h.plen_le
  have hkp : k.prefixlen = n.prefixlen - 1 := by rw [← hk, supernet_plen hp]
  have hkw : k.width = n.width := by rw [← hk, supernet_width]
  have hka : k.addr = n.addr - n.addr % 2 ^ (n.width - (n.prefixlen - 1)) := by
    rw [← hk, supernet_addr hp]
  have hwn : n.width = w := h.width_eq
  have hkk : n.width - (k.prefixlen + 1 - 1) = n.width - (n.prefixlen - 1) := by
    omega
  refine ⟨by omega, ?_⟩
  have hmod := addr_mod_parent h hp
  rw [hwn] at hka hkk
  rcases hmod with hm | hm
  · left
    apply Network.eq_of_fields
    · rw [Network.half0, hkw]
    · rw [Network.half0]
      simp only
      rw [hka, hm]; omega
    · rw [Network.half0]; simp only; omega
  · right
    apply Network.eq_of_fields
    · rw [Network.half1, hkw]
    · show n.addr = k.addr + 2 ^ (k.width - (k.prefixlen + 1))
      rw [hkw, hwn, hka]
      have h2 : w - (k.prefixlen + 1) = w - n.prefixlen := by omega
      rw [h2, hm]
      have hml : n.addr % 2 ^ (w - (n.prefixlen - 1)) ≤ n.addr :=
        Nat.mod_le _ _
      rw [hm] at hml
      omega
    · show n.prefixlen = k.prefixlen + 1
      omega

theorem half0_VW {w : Nat} {n : Network} (h : VW w n) (hlt : n.prefixlen < w) :
    VW w n.half0 := by
  refine ⟨(valid_iff _).mpr ?_, by rw [Network.half0, h.width_eq]⟩
  show n.prefixlen + 1 ≤ n.width ∧ n.addr < 2 ^ n.width ∧
    n.addr % 2 ^ (n.width - (n.prefixlen + 1)) = 0
  rw [h.width_eq]
  refine ⟨by omega, h.addr_lt, ?_⟩
  have hd : 2 ^ (w - (n.prefixlen + 1)) ∣ n.addr :=
    dvd_trans (Nat.pow_dvd_pow 2 (by omega)) h.dvd_addr
  obtain ⟨c, hc⟩ := hd
  rw [hc]
  exact Nat.mul_mod_right _ _

theorem half1_VW {w : Nat} {n : Network} (h : VW w n) (hlt : n.prefixlen < w) :
    VW w n.half1 := by
  refine ⟨(valid_iff _).mpr ?_, by rw [Network.half1, h.width_eq]⟩
  show n.prefixlen + 1 ≤ n.width ∧
    n.addr + 2 ^ (n.width - (n.prefixlen + 1)) < 2 ^ n.width ∧
    (n.addr + 2 ^ (n.width - (n.prefixlen + 1))) %
      2 ^ (n.width - (n.prefixlen + 1)) = 0
  rw [h.width_eq]
  have hd : 2 ^ (w - (n.prefixlen + 1)) ∣ n.addr :=
    dvd_trans (Nat.pow_dvd_pow 2 (by omega)) h.dvd_addr
  refine ⟨by omega, ?_, ?_⟩
  · have h1 := add_le_of_dvd_of_lt h.dvd_addr
      (Nat.pow_dvd_pow 2 (Nat.sub_le w n.prefixlen)) h.addr_lt
    have h2 : 2 ^ (w - (n.prefixlen + 1)) < 2 ^ (w - n.prefixlen) :=
      Nat.pow_lt_pow_right (by omega) (by omega)
    omega
  · obtain ⟨c, hc⟩ := hd
    have he : n.addr + 2 ^ (w - (n.prefixlen + 1)) =
        2 ^ (w - (n.prefixlen + 1)) * (c + 1) := by rw [hc]; ring
    rw [he]
    exact Nat.mul_mod_right _ _

theorem half_sizes {w : Nat} {n : Network} (h : VW w n) (hlt : n.prefixlen < w) :
    n.size = 2 ^ (w - (n.prefixlen + 1)) * 2 ∧
      n.half0.size = 2 ^ (w - (n.prefixlen + 1)) ∧
      n.half1.size = 2 ^ (w - (n.prefixlen + 1)) := by
  refine ⟨?_, ?_, ?_⟩
  · rw [h.size_eq, ← pow_succ]
    congr 1
    omega
  · rw [(half0_VW h hlt).size_eq]
    rfl
  · rw [(half1_VW h hlt).size_eq]
    rfl

theorem half_union {w : Nat} {n : Network} (h : VW w n) (hlt : n.prefixlen < w)
    (a : Nat) : memB a n = (memB a n.half0 || memB a n.half1) := by
  rw [Bool.eq_iff_iff]
  have hs := half_sizes h hlt
  have h0a : n.half0.addr = n.addr := rfl
  have h1a : n.half1.addr = n.addr + 2 ^ (n.width - (n.prefixlen + 1)) := rfl
  rw [h.width_eq] at h1a
  simp only [Bool.or_eq_true]
  rw [memB_iff_lt, memB_iff_lt, memB_iff_lt, h0a, h1a, hs.1, hs.2.1, hs.2.2]
  omega

theorem half_disjoint {w : Nat} {n : Network} (h : VW w n)
    (hlt : n.prefixlen < w) : DisjointN n.half0 n.half1 := by
  intro a ha
  have hs := half_sizes h hlt
  have h0a : n.half0.addr = n.addr := rfl
  have h1a : n.half1.addr = n.addr + 2 ^ (n.width - (n.prefixlen + 1)) := rfl
  rw [h.width_eq] at h1a
  rw [memB_iff_lt, h0a, hs.2.1] at ha
  rw [← Bool.not_eq_true, memB_iff_lt, h1a, hs.2.2]
  omega

theorem supernet_half0 {w : Nat} {n : Network} (h : VW w n)
    (hlt : n.prefixlen < w) : n.half0.supernet = n := by
  have hp : n.half0.prefixlen ≠ 0 := by
    show n.prefixlen + 1 ≠ 0
    omega
  apply Network.eq_of_fields
  · rw [supernet_width]
    rfl
  · rw [supernet_addr hp]
    show n.addr - n.addr % 2 ^ (n.width - (n.prefixlen + 1 - 1)) = n.addr
    have h2 : n.width - (n.prefixlen + 1 - 1) = w - n.prefixlen := by
      rw [h.width_eq]
      omega
    rw [h2]
    obtain ⟨c, hc⟩ := h.dvd_addr
    rw [hc, Nat.mul_mod_right]
    omega
  · rw [supernet_plen hp]
    show n.prefixlen + 1 - 1 = n.prefixlen
    omega

theorem supernet_half1 {w : Nat} {n : Network} (h : VW w n)
    (hlt : n.prefixlen < w) : n.half1.supernet = n := by
  have hp : n.half1.prefixlen ≠ 0 := by
    show n.prefixlen + 1 ≠ 0
    omega
  have h1a : n.half1.addr = n.addr + 2 ^ (w - (n.prefixlen + 1)) := by
    show n.addr + 2 ^ (n.width - (n.prefixlen + 1)) = _
    rw [h.width_eq]
  apply Network.eq_of_fields
  · rw [supernet_width]
    rfl
  · rw [supernet_addr hp, h1a]
    have h2 : n.half1.width - (n.half1.prefixlen - 1) = w - n.prefixlen := by
      show n.width - (n.prefixlen + 1 - 1) = w - n.prefixlen
      rw [h.width_eq]
      omega
    rw [h2]
    obtain ⟨c, hc⟩ := h.dvd_addr
    have hlt2 : 2 ^ (w - (n.prefixlen + 1)) < 2 ^ (w - n.prefixlen) :=
      Nat.pow_lt_pow_right (by omega) (by omega)
    have hmod : (n.addr + 2 ^ (w - (n.prefixlen + 1))) % 2 ^ (w - n.prefixlen) =
        2 ^ (w - (n.prefixlen + 1)) := by
      rw [hc, Nat.mul_add_mod]
      exact Nat.mod_eq_of_lt hlt2
    rw [hmod]
    omega
  · rw [supernet_plen hp]
    show n.prefixlen + 1 - 1 = n.prefixlen
    omega

theorem half0_ne_half1 {w : Nat} {n : Network} (h : VW w n)
    (hlt : n.prefixlen < w) : n.half0 ≠ n.half1 := by
  intro he
  have : n.half0.addr = n.half1.addr := by rw [he]
  have h0a : n.half0.addr = n.addr := rfl
  have h1a : n.half1.addr = n.addr + 2 ^ (n.width - (n.prefixlen + 1)) := rfl
  have hs : (0:Nat) < 2 ^ (n.width - (n.prefixlen + 1)) :=
    Nat.pos_pow_of_pos _ (by omega)
  omega

/-- The collision case of the merge loop: two distinct canonical networks
stored under the same `supernet` key cover exactly that key. -/
theorem merge_union {w : Nat} {m n : Network} (hm : VW w m) (hn : VW w n)
    (hne : m ≠ n) (hsup : m.supernet = n.supernet) :
    VW w n.supernet ∧ ∀ a, memB a n.supernet = (memB a m || memB a n) := by
  refine ⟨supernet_VW hn, ?_⟩
  by_cases hm0 : m.prefixlen = 0
  · -- `m` is the whole space: `n` is one of its halves and is absorbed.
    have hsm : m.supernet = m := supernet_of_plen_zero hm0
    have hkn : n.supernet = m := by rw [← hsup, hsm]
    have hsubn : SubsetN n m := by
      have := subsetN_supernet_self hn
      rw [hkn] at this
      exact this
    intro a
    rw [hkn, Bool.eq_iff_iff, Bool.or_eq_true]
    constructor
    · intro ha
      exact Or.inl ha
    · rintro (ha | ha)
      · exact ha
      · exact hsubn a ha
  · by_cases hn0 : n.prefixlen = 0
    · have hsn : n.supernet = n := supernet_of_plen_zero hn0
      have hkm : m.supernet = n := by rw [hsup, hsn]
      have hsubm : SubsetN m n := by
        have := subsetN_supernet_self hm
        rw [hkm] at this
        exact this
      intro a
      rw [hsn, Bool.eq_iff_iff, Bool.or_eq_true]
      constructor
      · intro ha
        exact Or.inr ha
      · rintro (ha | ha)
        · exact hsubm a ha
        · exact ha
    · -- both are proper children of the common key: they are the two halves.
      have hkv : VW w n.supernet := supernet_VW hn
      have hmne : m ≠ n.supernet := by
        intro he
        have hfix : m.supernet = m := by rw [hsup, ← he]
        have hpl := supernet_plen hm0
        rw [hfix] at hpl
        omega
      have hnne : n ≠ n.supernet := by
        intro he
        have hpl := supernet_plen hn0
        rw [← he] at hpl
        omega
      have hmh := eq_half_of_supernet hm hsup hmne
      have hnh := eq_half_of_supernet hn rfl hnne
      have hklt : n.supernet.prefixlen < w := by
        have h1 := hn.plen_le
        have h2 := hnh.1
        omega
      have hmn : m = n.supernet.half0 ∧ n = n.supernet.half1 ∨
          m = n.supernet.half1 ∧ n = n.supernet.half0 := by
        rcases hmh.2 with h1 | h1 <;> rcases hnh.2 with h2 | h2
        · exact absurd (h1.trans h2.symm) hne
        · exact Or.inl ⟨h1, h2⟩
        · exact Or.inr ⟨h1, h2⟩
        · exact absurd (h1.trans h2.symm) hne
      intro a
      have hu := half_union hkv hklt a
      rcases hmn with ⟨hm1, hn1⟩ | ⟨hm1, hn1⟩
      · rw [hu, ← hm1, ← hn1]
      · rw [hu, Bool.or_comm, ← hm1, ← hn1]

/-! ## The merge loop of `_collapse_addresses_internal` -/

theorem lookupA_none_iff (k : Network) (d : List (Network × Network)) :
    lookupA k d = none ↔ ∀ p ∈ d, p.1 ≠ k := by
  induction d with
  | nil => simp [lookupA]
  | cons hd tl ih =>
    obtain ⟨k', v⟩ := hd
    by_cases he : k' = k
    · subst he
      simp [lookupA]
    · simp only [lookupA, if_neg he, ih, List.mem_cons]
      constructor
      · rintro h p (rfl | hp)
        · exact he
        · exact h p hp
      · intro h p hp
        exact h p (Or.inr hp)

theorem lookupA_some_mem {k v : Network} {d : List (Network × Network)}
    (h : lookupA k d = some v) : (k, v) ∈ d := by
  induction d with
  | nil => simp [lookupA] at h
  | cons hd tl ih =>
    obtain ⟨k', v'⟩ := hd
    by_cases he : k' = k
    · subst he
      rw [lookupA, if_pos rfl] at h
      cases h
      exact List.mem_cons_self _ _
    · rw [lookupA, if_neg he] at h
      exact List.mem_cons_of_mem _ (ih h)

theorem eraseA_sublist (k : Network) (d : List (Network × Network)) :
    (eraseA k d).Sublist d := by
  induction d with
  | nil => simp [eraseA]
  | cons hd tl ih =>
    obtain ⟨k', v'⟩ := hd
    by_cases he : k' = k
    · rw [eraseA, if_pos he]
      exact (List.sublist_cons_self _ _)
    · rw [eraseA, if_neg he]
      exact ih.cons₂ _

theorem values_eraseA_perm {k v : Network} {d : List (Network × Network)}
    (h : lookupA k d = some v) :
    (valuesA d).Perm (v :: valuesA (eraseA k d)) := by
  induction d with
  | nil => simp [lookupA] at h
  | cons hd tl ih =>
    obtain ⟨k', v'⟩ := hd
    by_cases he : k' = k
    · subst he
      rw [lookupA, if_pos rfl] at h
      cases h
      rw [eraseA, if_pos rfl]
      exact List.Perm.refl _
    · rw [lookupA, if_neg he] at h
      rw [eraseA, if_neg he]
      show (v' :: valuesA tl).Perm (v :: v' :: valuesA (eraseA k tl))
      exact ((ih h).cons v').trans (List.Perm.swap _ _ _)

theorem coveredB_perm {l l' : List Network} (h : l.Perm l') (a : Nat) :
    coveredB l a = coveredB l' a := by
  rw [Bool.eq_iff_iff, coveredB_iff, coveredB_iff]
  constructor <;> rintro ⟨n, hn, hm⟩
  · exact ⟨n, h.mem_iff.mp hn, hm⟩
  · exact ⟨n, h.mem_iff.mpr hn, hm⟩

theorem allVW_cons {w : Nat} {n : Network} {l : List Network} :
    allVW w (n :: l) ↔ VW w n ∧ allVW w l := by
  constructor
  · intro h
    exact ⟨h n (List.mem_cons_self _ _), fun m hm => h m (List.mem_cons_of_mem _ hm)⟩
  · rintro ⟨h1, h2⟩ m hm
    rcases List.mem_cons.mp hm with rfl | hm
    · exact h1
    · exact h2 m hm

theorem loopMeasure_cons (n : Network) (rest : List Network)
    (d : List (Network × Network)) :
    loopMeasure (n :: rest) d = (n.prefixlen + 1) + loopMeasure rest d := by
  simp [loopMeasure, List.map_cons, List.sum_cons]
  omega

/-- Master invariant theorem for the merge loop: with enough fuel and a
well-formed dict, the loop yields a well-formed dict whose values cover
exactly what the work list and the incoming values covered. -/
theorem mergeLoop_master {w : Nat} : ∀ (fuel : Nat) (toMerge : List Network)
    (d : List (Network × Network)), loopMeasure toMerge d ≤ fuel →
    (∀ p ∈ d, Network.supernet p.2 = p.1) → (d.map Prod.fst).Nodup →
    allVW w toMerge → allVW w (valuesA d) →
    (∀ p ∈ mergeLoop fuel toMerge d, Network.supernet p.2 = p.1) ∧
    ((mergeLoop fuel toMerge d).map Prod.fst).Nodup ∧
    allVW w (valuesA (mergeLoop fuel toMerge d)) ∧
    (∀ a, coveredB (valuesA (mergeLoop fuel toMerge d)) a =
      (coveredB toMerge a || coveredB (valuesA d) a)) := by
  intro fuel
  induction fuel with
  | zero =>
    intro toMerge d hfuel hsk hnd hvm hvd
    have hempty : toMerge = [] := by
      cases toMerge with
      | nil => rfl
      | cons n rest =>
        rw [loopMeasure_cons] at hfuel
        omega
    subst hempty
    refine ⟨hsk, hnd, hvd, ?_⟩
    intro a
    simp [mergeLoop, coveredB]
  | succ fuel ih =>
    intro toMerge d hfuel hsk hnd hvm hvd
    cases toMerge with
    | nil =>
      refine ⟨hsk, hnd, hvd, ?_⟩
      intro a
      simp [mergeLoop, coveredB]
    | cons net rest =>
      rw [loopMeasure_cons] at hfuel
      obtain ⟨hnetv, hrestv⟩ := allVW_cons.mp hvm
      show _ ∧ _ ∧ _ ∧ ∀ a, coveredB (valuesA (mergeLoop (fuel + 1) (net :: rest) d)) a = _
      rcases hlk : lookupA net.supernet d with _ | existing
      · -- new key: move `net` into the dict
        have hstep : mergeLoop (fuel + 1) (net :: rest) d =
            mergeLoop fuel rest ((net.supernet, net) :: d) := by
          rw [mergeLoop, hlk]
        have hm' : loopMeasure rest ((net.supernet, net) :: d) ≤ fuel := by
          have : loopMeasure rest ((net.supernet, net) :: d) =
              loopMeasure rest d + net.prefixlen := by
            simp [loopMeasure, valuesA]
            omega
          omega
        have hsk' : ∀ p ∈ ((net.supernet, net) :: d), Network.supernet p.2 = p.1 := by
          rintro p hp
          rcases List.mem_cons.mp hp with rfl | hp
          · rfl
          · exact hsk p hp
        have hnd' : (((net.supernet, net) :: d).map Prod.fst).Nodup := by
          rw [List.map_cons, List.nodup_cons]
          refine ⟨?_, hnd⟩
          intro hmem
          obtain ⟨p, hp, hpe⟩ := List.mem_map.mp hmem
          exact absurd hpe ((lookupA_none_iff _ _).mp hlk p hp)
        have hvd' : allVW w (valuesA ((net.supernet, net) :: d)) := by
          show allVW w (net :: valuesA d)
          exact allVW_cons.mpr ⟨hnetv, hvd⟩
        obtain ⟨r1, r2, r3, r4⟩ := ih rest _ hm' hsk' hnd' hrestv hvd'
        rw [hstep]
        refine ⟨r1, r2, r3, ?_⟩
        intro a
        rw [r4 a]
        have hv : valuesA ((net.supernet, net) :: d) = net :: valuesA d := rfl
        rw [hv, coveredB_cons, coveredB_cons]
        cases memB a net <;> cases coveredB rest a <;> cases coveredB (valuesA d) a <;> rfl
      · -- collision
        have hmem := lookupA_some_mem hlk
        have hexk : Network.supernet existing = net.supernet := hsk _ hmem
        have hexv : VW w existing := hvd _ (by
          exact List.mem_map.mpr ⟨(net.supernet, existing), hmem, rfl⟩)
        by_cases he : existing = net
        · -- duplicate: dropped
          have hstep : mergeLoop (fuel + 1) (net :: rest) d = mergeLoop fuel rest d := by
            rw [mergeLoop, hlk]
            simp [he]
          have hm' : loopMeasure rest d ≤ fuel := by omega
          obtain ⟨r1, r2, r3, r4⟩ := ih rest d hm' hsk hnd hrestv hvd
          rw [hstep]
          refine ⟨r1, r2, r3, ?_⟩
          intro a
          rw [r4 a]
          rw [coveredB_cons]
          have hnm : memB a net = true → coveredB (valuesA d) a = true := by
            intro hm
            rw [coveredB_iff]
            refine ⟨existing, ?_, by rw [he]; exact hm⟩
            exact List.mem_map.mpr ⟨(net.supernet, existing), hmem, rfl⟩
          cases hb : memB a net
          · rfl
          · rw [hnm hb]
            simp
        · -- genuine merge: push the parent, drop both children
          have hstep : mergeLoop (fuel + 1) (net :: rest) d =
              mergeLoop fuel (net.supernet :: rest) (eraseA net.supernet d) := by
            rw [mergeLoop, hlk]
            simp [he]
          have hperm := values_eraseA_perm hlk
          have hsupv : VW w net.supernet := supernet_VW hnetv
          have hun := merge_union hexv hnetv he hexk
          -- measure bookkeeping
          have hsum : ((valuesA d).map Network.prefixlen).sum =
              existing.prefixlen + ((valuesA (eraseA net.supernet d)).map Network.prefixlen).sum := by
            have := (hperm.map Network.prefixlen).sum_eq
            simpa using this
          have hplen : net.supernet.prefixlen + 1 ≤ net.prefixlen + existing.prefixlen := by
            by_cases hp0 : net.prefixlen = 0
            · -- key equals `net` itself; `existing` is then a proper child
              have hkn : net.supernet = net := supernet_of_plen_zero hp0
              have hene : existing ≠ net.supernet := by rw [hkn]; exact he
              have hch := (eq_half_of_supernet hexv hexk hene).1
              rw [hkn] at hch
              rw [hkn]
              omega
            · have := supernet_plen hp0
              omega
          have hm' : loopMeasure (net.supernet :: rest) (eraseA net.supernet d) ≤ fuel := by
            rw [loopMeasure_cons]
            unfold loopMeasure at hfuel ⊢
            omega
          have hsk' : ∀ p ∈ eraseA net.supernet d, Network.supernet p.2 = p.1 :=
            fun p hp => hsk p ((eraseA_sublist _ _).mem hp)
          have hnd' : ((eraseA net.supernet d).map Prod.fst).Nodup :=
            (((eraseA_sublist _ _).map Prod.fst).nodup hnd)
          have hvm' : allVW w (net.supernet :: rest) := allVW_cons.mpr ⟨hsupv, hrestv⟩
          have hvd' : allVW w (valuesA (eraseA net.supernet d)) := by
            intro v hv
            apply hvd
            exact ((eraseA_sublist _ _).map Prod.snd).mem hv
          obtain ⟨r1, r2, r3, r4⟩ := ih _ _ hm' hsk' hnd' hvm' hvd'
          rw [hstep]
          refine ⟨r1, r2, r3, ?_⟩
          intro a
          rw [r4 a]
          rw [coveredB_cons, coveredB_cons, coveredB_perm hperm a, coveredB_cons,
            hun.2 a]
          cases memB a existing <;> cases memB a net <;> cases coveredB rest a <;>
            cases coveredB (valuesA (eraseA net.supernet d)) a <;> rfl

/-! ## Sorting and the subsumption filter -/

theorem netLE_iff (m n : Network) : netLE m n = true ↔
    m.addr < n.addr ∨ (m.addr = n.addr ∧ m.prefixlen ≤ n.prefixlen) := by
  simp [netLE]

theorem netLE_total {m n : Network} (h : netLE m n = false) : netLE n m = true := by
  rw [netLE_iff]
  rw [← Bool.not_eq_true, netLE_iff] at h
  push_neg at h
  omega

theorem insertNet_perm (n : Network) (l : List Network) :
    (insertNet n l).Perm (n :: l) := by
  induction l with
  | nil => exact List.Perm.refl _
  | cons m rest ih =>
    rw [insertNet]
    split
    · exact List.Perm.refl _
    · exact (ih.cons m).trans (List.Perm.swap _ _ _)

theorem insertNet_pairwise {n : Network} {l : List Network}
    (h : l.Pairwise (fun a b => netLE a b = true)) :
    (insertNet n l).Pairwise (fun a b => netLE a b = true) := by
  induction l with
  | nil => simp [insertNet]
  | cons m rest ih =>
    rw [insertNet]
    rw [List.pairwise_cons] at h
    split
    · rename_i hle
      rw [List.pairwise_cons]
      refine ⟨?_, List.pairwise_cons.mpr h⟩
      intro b hb
      rcases List.mem_cons.mp hb with rfl | hb
      · exact hle
      · -- n ≤ m ≤ b
        have h1 := h.1 b hb
        rw [netLE_iff] at hle h1 ⊢
        omega
    · rename_i hle
      have hmn : netLE m n = true := netLE_total (Bool.not_eq_true _ ▸ hle |> fun h => by
        cases hnm : netLE n m
        · rfl
        · exact absurd hnm hle)
      rw [List.pairwise_cons]
      refine ⟨?_, ih h.2⟩
      intro b hb
      have := (insertNet_perm n rest).mem_iff.mp hb
      rcases List.mem_cons.mp this with rfl | hb'
      · exact hmn
      · exact h.1 b hb'

theorem sortNets_perm (l : List Network) : (sortNets l).Perm l := by
  induction l with
  | nil => exact List.Perm.refl _
  | cons n rest ih =>
    rw [sortNets]
    exact (insertNet_perm n (sortNets rest)).trans (ih.cons n)

theorem sortNets_pairwise (l : List Network) :
    (sortNets l).Pairwise (fun a b => netLE a b = true) := by
  induction l with
  | nil => simp [sortNets]
  | cons n rest ih =>
    rw [sortNets]
    exact insertNet_pairwise ih

/-- A network sorted before another but with a broadcast at least as large
contains it (same-family canonical networks). -/
theorem subset_of_le_of_brd {w : Nat} {m n : Network} (hm : VW w m)
    (hn : VW w n) (hle : netLE m n = true) (hbr : n.broadcast ≤ m.broadcast) :
    SubsetN n m := by
  rw [netLE_iff] at hle
  have hna : m.addr ≤ n.addr := by omega
  by_cases hcap : n.addr ≤ m.broadcast
  · have hxm : memB n.addr m = true := by rw [memB_iff]; exact ⟨hna, hcap⟩
    rcases nested_or_disjoint hn hm (memB_addr n) hxm with hs | hs
    · exact hs
    · -- `m ⊆ n`: then the two intervals coincide, fine either way
      have h1 := (subsetN_iff _ _).mp hs
      rw [subsetN_iff]
      omega
  · exfalso
    have := addr_le_broadcast n
    omega

/-- The strict progress fact for a network kept by the filter: it starts
after the previous emitted network ends. -/
theorem kept_starts_after {w : Nat} {m n : Network} (hm : VW w m) (hn : VW w n)
    (hle : netLE m n = true) (hbr : m.broadcast < n.broadcast) :
    m.broadcast < n.addr := by
  by_contra hc
  push_neg at hc
  rw [netLE_iff] at hle
  have hna : m.addr ≤ n.addr := by omega
  have hxm : memB n.addr m = true := by rw [memB_iff]; exact ⟨hna, hc⟩
  rcases nested_or_disjoint hn hm (memB_addr n) hxm with hs | hs
  · have := (subsetN_iff _ _).mp hs
    omega
  · -- `m ⊆ n` with `m` sorted first: same base address, `m` no finer,
    -- hence `n ⊆ m`, contradicting the broadcast growth.
    have h1 := (subsetN_iff _ _).mp hs
    have ha : m.addr = n.addr := by omega
    have hp : m.prefixlen ≤ n.prefixlen := by
      rcases hle with h | h
      · omega
      · exact h.2
    have hsz : n.size ≤ m.size := by
      rw [hn.size_eq, hm.size_eq]
      exact Nat.pow_le_pow_right (by omega) (by omega)
    rw [broadcast_def, broadcast_def] at hbr
    have := size_pos n
    omega

/-- Invariant lemma for the `some last` states of the subsumption filter. -/
theorem filterSubsumed_some_master {w : Nat} : ∀ (zs : List Network)
    (last : Network), allVW w zs → VW w last →
    zs.Pairwise (fun a b => netLE a b = true) →
    (∀ n ∈ zs, netLE last n = true) →
    (filterSubsumed (some last) zs).Sublist zs ∧
    (∀ n ∈ filterSubsumed (some last) zs, last.broadcast < n.addr) ∧
    (filterSubsumed (some last) zs).Pairwise (fun a b => a.broadcast < b.addr) ∧
    (∀ a, (memB a last || coveredB (filterSubsumed (some last) zs) a) =
      (memB a last || coveredB zs a)) := by
  intro zs
  induction zs with
  | nil =>
    intro last _ _ _ _
    refine ⟨List.Sublist.refl _, by simp [filterSubsumed], by simp [filterSubsumed], ?_⟩
    intro a
    rfl
  | cons n rest ih =>
    intro last hvz hvl hpw hla
    obtain ⟨hvn, hvrest⟩ := allVW_cons.mp hvz
    rw [List.pairwise_cons] at hpw
    have hlan : netLE last n = true := hla n (List.mem_cons_self _ _)
    by_cases hdrop : n.broadcast ≤ last.broadcast
    · -- dropped: `n ⊆ last`
      have hstep : filterSubsumed (some last) (n :: rest) =
          filterSubsumed (some last) rest := by
        rw [filterSubsumed, if_pos hdrop]
      have hsub : SubsetN n last := subset_of_le_of_brd hvl hvn hlan hdrop
      have hla' : ∀ m ∈ rest, netLE last m = true :=
        fun m hm => hla m (List.mem_cons_of_mem _ hm)
      obtain ⟨r1, r2, r3, r4⟩ := ih last hvrest hvl hpw.2 hla'
      rw [hstep]
      refine ⟨r1.trans (List.sublist_cons_self _ _), r2, r3, ?_⟩
      intro a
      rw [r4 a, coveredB_cons]
      have habs : memB a n = true → memB a last = true := hsub a
      cases hbn : memB a n
      · rfl
      · rw [habs hbn]
        simp
    · -- kept
      push_neg at hdrop
      have hstep : filterSubsumed (some last) (n :: rest) =
          n :: filterSubsumed (some n) rest := by
        rw [filterSubsumed, if_neg (by omega)]
      have hafter : last.broadcast < n.addr := kept_starts_after hvl hvn hlan hdrop
      obtain ⟨r1, r2, r3, r4⟩ := ih n hvrest hvn hpw.2 hpw.1
      rw [hstep]
      refine ⟨r1.cons₂ n, ?_, ?_, ?_⟩
      · intro m hm
        rcases List.mem_cons.mp hm with rfl | hm
        · exact hafter
        · have := r2 m hm
          have := addr_le_broadcast n
          omega
      · rw [List.pairwise_cons]
        exact ⟨r2, r3⟩
      · intro a
        rw [coveredB_cons, coveredB_cons]
        have hr := r4 a
        cases hbl : memB a last <;> cases hbn : memB a n <;>
          cases hbres : coveredB (filterSubsumed (some n) rest) a <;>
          cases hbrest : coveredB rest a <;> simp_all

theorem filterSubsumed_none_master {w : Nat} {zs : List Network}
    (hvz : allVW w zs) (hpw : zs.Pairwise (fun a b => netLE a b = true)) :
    (filterSubsumed none zs).Sublist zs ∧
    (filterSubsumed none zs).Pairwise (fun a b => a.broadcast < b.addr) ∧
    (∀ a, coveredB (filterSubsumed none zs) a = coveredB zs a) := by
  cases zs with
  | nil => exact ⟨List.Sublist.refl _, by simp [filterSubsumed], fun a => rfl⟩
  | cons n rest =>
    obtain ⟨hvn, hvrest⟩ := allVW_cons.mp hvz
    rw [List.pairwise_cons] at hpw
    have hstep : filterSubsumed none (n :: rest) =
        n :: filterSubsumed (some n) rest := rfl
    obtain ⟨r1, r2, r3, r4⟩ :=
      filterSubsumed_some_master rest n hvrest hvn hpw.2 hpw.1
    rw [hstep]
    refine ⟨r1.cons₂ n, ?_, ?_⟩
    · rw [List.pairwise_cons]
      exact ⟨r2, r3⟩
    · intro a
      rw [coveredB_cons, coveredB_cons]
      exact r4 a

theorem values_map_supernet {D : List (Network × Network)}
    (hsk : ∀ p ∈ D, p.2.supernet = p.1) :
    (valuesA D).map Network.supernet = D.map Prod.fst := by
  induction D with
  | nil => rfl
  | cons p tl ih =>
    show p.2.supernet :: (valuesA tl).map Network.supernet = p.1 :: tl.map Prod.fst
    rw [hsk p (List.mem_cons_self _ _), ih (fun q hq => hsk q (List.mem_cons_of_mem _ hq))]

theorem allVW_of_perm {w : Nat} {l l' : List Network} (h : l.Perm l')
    (hl : allVW w l) : allVW w l' := fun n hn => hl n (h.mem_iff.mpr hn)

theorem allVW_of_sublist {w : Nat} {l l' : List Network} (h : l.Sublist l')
    (hl : allVW w l') : allVW w l := fun n hn => hl n (h.mem hn)

/-- The full characterisation of `_collapse_addresses_internal` on a
single-family canonical input: canonical single-family members, strictly
increasing disjoint blocks, exact coverage, and no two members sharing a
parent (the dict keys were unique). -/
theorem internal_master {w : Nat} {addresses : List Network}
    (hv : allVW w addresses) :
    allVW w (collapse_addresses_internal addresses) ∧
    (collapse_addresses_internal addresses).Pairwise
      (fun a b => a.broadcast < b.addr) ∧
    (∀ a, coveredB (collapse_addresses_internal addresses) a =
      coveredB addresses a) ∧
    ((collapse_addresses_internal addresses).map Network.supernet).Nodup := by
  have hvrev : allVW w addresses.reverse :=
    allVW_of_perm (List.reverse_perm addresses).symm hv
  obtain ⟨m1, m2, m3, m4⟩ := mergeLoop_master (w := w)
    (loopMeasure addresses.reverse []) addresses.reverse [] (le_refl _)
    (by intro p hp; cases hp) (by simp) hvrev (by intro n hn; cases hn)
  set D := mergeLoop (loopMeasure addresses.reverse []) addresses.reverse []
    with hD
  have hvals : allVW w (valuesA D) := m3
  have hcov : ∀ a, coveredB (valuesA D) a = coveredB addresses a := by
    intro a
    rw [m4 a]
    have h1 : coveredB addresses.reverse a = coveredB addresses a :=
      coveredB_perm (List.reverse_perm addresses) a
    rw [h1]
    cases coveredB addresses a <;> rfl
  have hmapnd : ((valuesA D).map Network.supernet).Nodup := by
    rw [values_map_supernet m1]
    exact m2
  have hperm := sortNets_perm (valuesA D)
  have hvz : allVW w (sortNets (valuesA D)) := allVW_of_perm hperm.symm hvals
  have hpw := sortNets_pairwise (valuesA D)
  obtain ⟨f1, f2, f3⟩ := filterSubsumed_none_master hvz hpw
  have hout : collapse_addresses_internal addresses =
      filterSubsumed none (sortNets (valuesA D)) := rfl
  rw [hout]
  refine ⟨allVW_of_sublist f1 hvz, f2, ?_, ?_⟩
  · intro a
    rw [f3 a, coveredB_perm hperm a, hcov a]
  · have h1 : ((sortNets (valuesA D)).map Network.supernet).Nodup :=
      ((hperm.map Network.supernet).nodup_iff).mpr hmapnd
    exact ((f1.map Network.supernet).nodup h1)

/-! ## Maximal blocks: the canonical form of a collapsed set -/

theorem disjointN_symm {m n : Network} (h : DisjointN m n) : DisjointN n m := by
  intro x hx
  cases hm : memB x m
  · rfl
  · rw [h x hm] at hx
    cases hx

theorem pairwise_forall_disjoint {l : List Network} (h : l.Pairwise DisjointN) :
    ∀ m ∈ l, ∀ n ∈ l, m ≠ n → DisjointN m n := by
  have hsym : Symmetric DisjointN := fun a b hab => disjointN_symm hab
  intro m hm n hn hne
  exact List.Pairwise.forall hsym h hm hn hne

theorem pairwise_disjoint_of_brdlt {l : List Network}
    (h : l.Pairwise (fun a b => a.broadcast < b.addr)) : l.Pairwise DisjointN := by
  refine h.imp ?_
  intro a b hab x hx
  rw [memB_iff] at hx
  rw [← Bool.not_eq_true, memB_iff]
  omega

theorem nodup_of_brdlt {l : List Network}
    (h : l.Pairwise (fun a b => a.broadcast < b.addr)) : l.Nodup := by
  refine h.imp ?_
  intro a b hab
  intro he
  subst he
  exact absurd hab (by have := addr_le_broadcast a; omega)

theorem pairwise_forall_supernet_ne {l : List Network}
    (h : (l.map Network.supernet).Nodup) :
    ∀ m ∈ l, ∀ n ∈ l, m ≠ n → m.supernet ≠ n.supernet := by
  have hpw : l.Pairwise (fun a b => a.supernet ≠ b.supernet) :=
    List.pairwise_map.mp h
  have hsym : Symmetric (fun a b : Network => a.supernet ≠ b.supernet) :=
    fun a b hab => hab ∘ Eq.symm
  intro m hm n hn hne
  exact List.Pairwise.forall hsym hpw hm hn hne

/-- A strict superset of a canonical network contains its parent as well. -/
theorem ssub_supernet {w : Nat} {b c : Network} (hb : VW w b) (hc : VW w c)
    (hsub : SubsetN b c) (hne : b ≠ c) : SubsetN b.supernet c := by
  have hplt := plen_lt_of_ssub hb hc hsub hne
  have hp0 : b.prefixlen ≠ 0 := by omega
  have hple : c.prefixlen ≤ b.supernet.prefixlen := by
    rw [supernet_plen hp0]
    omega
  exact subset_of_common (supernet_VW hb) hc hple
    (subsetN_supernet_self hb b.addr (memB_addr b)) (hsub b.addr (memB_addr b))

/-- Any family of disjoint canonical sub-blocks exactly covering a canonical
block either is the block itself or contains two sibling blocks. -/
theorem partition_buddy {w : Nat} : ∀ (h : Nat) (B : Network) (L : List Network),
    w - B.prefixlen ≤ h → VW w B → allVW w L → (∀ c ∈ L, SubsetN c B) →
    (∀ m ∈ L, ∀ n ∈ L, m ≠ n → DisjointN m n) →
    (∀ a, memB a B = true → coveredB L a = true) →
    B ∈ L ∨ ∃ c₁ ∈ L, ∃ c₂ ∈ L, c₁ ≠ c₂ ∧ c₁.supernet = c₂.supernet := by
  intro h
  induction h with
  | zero =>
    intro B L hfuel hB hL hsub hdisj hcov
    by_cases hBL : B ∈ L
    · exact Or.inl hBL
    · exfalso
      obtain ⟨c₀, hc₀L, hc₀m⟩ := (coveredB_iff _ _).mp (hcov B.addr (memB_addr B))
      have hne : c₀ ≠ B := fun he => hBL (he ▸ hc₀L)
      have hlt := plen_lt_of_ssub (hL c₀ hc₀L) hB (hsub c₀ hc₀L) hne
      have := (hL c₀ hc₀L).plen_le
      omega
  | succ h ih =>
    intro B L hfuel hB hL hsub hdisj hcov
    by_cases hBL : B ∈ L
    · exact Or.inl hBL
    · have hall : ∀ c ∈ L, B.prefixlen < c.prefixlen := by
        intro c hc
        exact plen_lt_of_ssub (hL c hc) hB (hsub c hc) (fun he => hBL (he ▸ hc))
      obtain ⟨c₀, hc₀L, _⟩ := (coveredB_iff _ _).mp (hcov B.addr (memB_addr B))
      have hBlt : B.prefixlen < w := by
        have := hall c₀ hc₀L
        have := (hL c₀ hc₀L).plen_le
        omega
      have hh0 := half0_VW hB hBlt
      have hh1 := half1_VW hB hBlt
      have hp0 : B.half0.prefixlen = B.prefixlen + 1 := rfl
      have hp1 : B.half1.prefixlen = B.prefixlen + 1 := rfl
      -- every member sits inside one half, decided by its base address
      have hhalf : ∀ c ∈ L, (memB c.addr B.half0 = true ∧ SubsetN c B.half0) ∨
          (memB c.addr B.half1 = true ∧ SubsetN c B.half1) := by
        intro c hc
        have hcB : memB c.addr B = true := hsub c hc c.addr (memB_addr c)
        have hu := half_union hB hBlt c.addr
        rw [hcB] at hu
        have hple0 : B.half0.prefixlen ≤ c.prefixlen := by
          rw [hp0]; exact hall c hc
        have hple1 : B.half1.prefixlen ≤ c.prefixlen := by
          rw [hp1]; exact hall c hc
        rcases Bool.or_eq_true _ _ |>.mp hu.symm with h0 | h1
        · exact Or.inl ⟨h0, subset_of_common (hL c hc) hh0 hple0 (memB_addr c) h0⟩
        · exact Or.inr ⟨h1, subset_of_common (hL c hc) hh1 hple1 (memB_addr c) h1⟩
      -- the two filtered families cover the two halves
      have hside : ∀ (half : Network), VW w half → half.prefixlen = B.prefixlen + 1 →
          (∀ c ∈ L, (memB c.addr half = true ∧ SubsetN c half) ∨ DisjointN half c) →
          (∀ a, memB a half = true → memB a B = true) →
          half ∈ L.filter (fun c => memB c.addr half) ∨
            ∃ c₁ ∈ L, ∃ c₂ ∈ L, c₁ ≠ c₂ ∧ c₁.supernet = c₂.supernet := by
        intro half hhv hhp hsplit hhB
        have hr := ih half (L.filter (fun c => memB c.addr half))
          (by omega)
          hhv
          (fun c hc => hL c (List.mem_filter.mp hc).1)
          (fun c hc => by
            rcases hsplit c (List.mem_filter.mp hc).1 with hcase | hcase
            · exact hcase.2
            · exfalso
              have hmem := (List.mem_filter.mp hc).2
              have h1 := hcase c.addr hmem
              rw [memB_addr c] at h1
              simp at h1)
          (fun m hm n hn hne =>
            hdisj m (List.mem_filter.mp hm).1 n (List.mem_filter.mp hn).1 hne)
          (fun a ha => by
            obtain ⟨c, hcL, hcm⟩ := (coveredB_iff _ _).mp (hcov a (hhB a ha))
            rcases hsplit c hcL with hcase | hcase
            · rw [coveredB_iff]
              exact ⟨c, List.mem_filter.mpr ⟨hcL, hcase.1⟩, hcm⟩
            · exfalso
              have := hcase a ha
              rw [this] at hcm
              cases hcm)
        rcases hr with hr | ⟨c₁, hc₁, c₂, hc₂, hne, hsup'⟩
        · exact Or.inl hr
        · exact Or.inr ⟨c₁, (List.mem_filter.mp hc₁).1, c₂,
            (List.mem_filter.mp hc₂).1, hne, hsup'⟩
      have hsplit0 : ∀ c ∈ L, (memB c.addr B.half0 = true ∧ SubsetN c B.half0) ∨
          DisjointN B.half0 c := by
        intro c hc
        rcases hhalf c hc with hca | hca
        · exact Or.inl hca
        · right
          intro x hx
          cases hmc : memB x c
          · rfl
          · exfalso
            have hx1 : memB x B.half1 = true := hca.2 x hmc
            have hdd := half_disjoint hB hBlt x hx
            rw [hx1] at hdd
            simp at hdd
      have hsplit1 : ∀ c ∈ L, (memB c.addr B.half1 = true ∧ SubsetN c B.half1) ∨
          DisjointN B.half1 c := by
        intro c hc
        rcases hhalf c hc with hca | hca
        · right
          intro x hx
          cases hmc : memB x c
          · rfl
          · exfalso
            have hx0 : memB x B.half0 = true := hca.2 x hmc
            have hdd := half_disjoint hB hBlt x hx0
            rw [hx] at hdd
            simp at hdd
        · exact Or.inl hca
      have hB0sub : ∀ a, memB a B.half0 = true → memB a B = true := by
        intro a ha
        rw [half_union hB hBlt a, ha]
        rfl
      have hB1sub : ∀ a, memB a B.half1 = true → memB a B = true := by
        intro a ha
        rw [half_union hB hBlt a, ha]
        cases memB a B.half0 <;> rfl
      rcases hside B.half0 hh0 hp0 hsplit0 hB0sub with h0 | hpair
      · rcases hside B.half1 hh1 hp1 hsplit1 hB1sub with h1 | hpair'
        · right
          refine ⟨B.half0, (List.mem_filter.mp h0).1, B.half1,
            (List.mem_filter.mp h1).1, half0_ne_half1 hB hBlt, ?_⟩
          rw [supernet_half0 hB hBlt, supernet_half1 hB hBlt]
        · exact Or.inr hpair'
      · exact Or.inr hpair

/-- Every member of a disjoint exact cover with pairwise distinct parents is
a maximal block of the covered set. -/
theorem mem_is_maxBlock {w : Nat} {out : List Network} {S : Nat → Bool}
    (hv : allVW w out)
    (hdisj : ∀ m ∈ out, ∀ n ∈ out, m ≠ n → DisjointN m n)
    (hsupne : ∀ m ∈ out, ∀ n ∈ out, m ≠ n → m.supernet ≠ n.supernet)
    (hcov : ∀ a, coveredB out a = S a)
    {b : Network} (hb : b ∈ out) : maxBlock w S b := by
  refine ⟨hv b hb, ?_, ?_⟩
  · intro a ha
    rw [← hcov a, coveredB_iff]
    exact ⟨b, hb, ha⟩
  · by_cases hp0 : b.prefixlen = 0
    · exact Or.inl hp0
    · right
      by_contra hcon
      push_neg at hcon
      have hSall : ∀ a, memB a b.supernet = true → S a = true := by
        intro a ha
        have h1 := hcon a ha
        cases hS : S a
        · exact absurd hS h1
        · rfl
      have hbv := hv b hb
      have hsupV : VW w b.supernet := supernet_VW hbv
      have hbP : b ≠ b.supernet := by
        intro he
        have := supernet_plen hp0
        rw [← he] at this
        omega
      have hhalf := eq_half_of_supernet hbv rfl hbP
      have hPlt : b.supernet.prefixlen < w := by
        have h1 := hbv.plen_le
        have h2 := hhalf.1
        omega
      obtain ⟨bd, hbne, hbdV, hsupeq, hunion, hbdisj⟩ :
          ∃ bd, b ≠ bd ∧ VW w bd ∧ bd.supernet = b.supernet ∧
            (∀ x, memB x b.supernet = (memB x b || memB x bd)) ∧
            DisjointN b bd := by
        rcases hhalf.2 with hcase | hcase
        · refine ⟨b.supernet.half1, ?_, half1_VW hsupV hPlt,
            supernet_half1 hsupV hPlt, ?_, ?_⟩
          · intro he
            exact half0_ne_half1 hsupV hPlt (hcase.symm.trans he)
          · intro x
            rw [half_union hsupV hPlt x, ← hcase]
          · intro x hx
            rw [hcase] at hx
            exact half_disjoint hsupV hPlt x hx
        · refine ⟨b.supernet.half0, ?_, half0_VW hsupV hPlt,
            supernet_half0 hsupV hPlt, ?_, ?_⟩
          · intro he
            exact half0_ne_half1 hsupV hPlt (he.symm.trans hcase)
          · intro x
            rw [half_union hsupV hPlt x, ← hcase, Bool.or_comm]
          · intro x hx
            rw [hcase] at hx
            exact disjointN_symm (half_disjoint hsupV hPlt) x hx
      have hbdsubS : ∀ a, memB a bd = true → S a = true := by
        intro a ha
        apply hSall
        rw [hunion a, ha]
        cases memB a b <;> rfl
      have hkey : ∀ c ∈ out, ∀ x, memB x c = true → memB x bd = true →
          SubsetN c bd := by
        intro c hc x hxc hxbd
        rcases nested_or_disjoint (hv c hc) hbdV hxc hxbd with hs | hs
        · exact hs
        · by_cases hce : c = bd
          · rw [hce]
            exact fun y hy => hy
          · exfalso
            have hssub : SubsetN bd.supernet c :=
              ssub_supernet hbdV (hv c hc) hs (fun he => hce he.symm)
            rw [hsupeq] at hssub
            have hbc : SubsetN b c :=
              fun y hy => hssub y (subsetN_supernet_self hbv y hy)
            by_cases hcb : c = b
            · have h1 := hs bd.addr (memB_addr bd)
              rw [hcb] at h1
              have h2 := hbdisj bd.addr h1
              rw [memB_addr bd] at h2
              simp at h2
            · have hd := hdisj b hb c hc (fun he => hcb he.symm)
              have h1 := hd b.addr (memB_addr b)
              rw [hbc b.addr (memB_addr b)] at h1
              simp at h1
      have hpart := partition_buddy (w - bd.prefixlen) bd
        (out.filter (fun c => memB c.addr bd)) (le_refl _) hbdV
        (fun c hc => hv c (List.mem_filter.mp hc).1)
        (fun c hc => hkey c (List.mem_filter.mp hc).1 c.addr (memB_addr c)
          (List.mem_filter.mp hc).2)
        (fun m hm n hn hne => hdisj m (List.mem_filter.mp hm).1 n
          (List.mem_filter.mp hn).1 hne)
        (fun a ha => by
          have hS := hbdsubS a ha
          rw [← hcov a, coveredB_iff] at hS
          obtain ⟨c, hcL, hcm⟩ := hS
          have hsub := hkey c hcL a hcm ha
          rw [coveredB_iff]
          exact ⟨c, List.mem_filter.mpr ⟨hcL, hsub c.addr (memB_addr c)⟩, hcm⟩)
      rcases hpart with hbd | ⟨c₁, hc₁, c₂, hc₂, hne, hsupp⟩
      · have hbdout : bd ∈ out := (List.mem_filter.mp hbd).1
        exact hsupne b hb bd hbdout hbne hsupeq.symm
      · exact hsupne c₁ (List.mem_filter.mp hc₁).1 c₂ (List.mem_filter.mp hc₂).1
          hne hsupp

/-- Conversely, every maximal block of the covered set is a member. -/
theorem maxBlock_mem {w : Nat} {out : List Network} {S : Nat → Bool}
    (hv : allVW w out)
    (hdisj : ∀ m ∈ out, ∀ n ∈ out, m ≠ n → DisjointN m n)
    (hmax : ∀ c ∈ out, maxBlock w S c)
    (hcov : ∀ a, coveredB out a = S a)
    {b : Network} (hb : maxBlock w S b) : b ∈ out := by
  have hbS : S b.addr = true := hb.2.1 b.addr (memB_addr b)
  rw [← hcov b.addr, coveredB_iff] at hbS
  obtain ⟨c, hcO, hcm⟩ := hbS
  rcases nested_or_disjoint hb.1 (hv c hcO) (memB_addr b) hcm with hs | hs
  · -- b ⊆ c: a strictly larger c would contain b's parent inside S
    by_cases he : b = c
    · rw [he]
      exact hcO
    · exfalso
      have hssub := ssub_supernet hb.1 (hv c hcO) hs he
      rcases hb.2.2 with hp0 | ⟨a, haP, haS⟩
      · have := plen_lt_of_ssub hb.1 (hv c hcO) hs he
        omega
      · have := (hmax c hcO).2.1 a (hssub a haP)
        rw [haS] at this
        cases this
  · -- c ⊊ b is impossible: c's parent would sit inside S via b
    by_cases he : c = b
    · rw [← he]
      exact hcO
    · exfalso
      have hssub := ssub_supernet (hv c hcO) hb.1 hs he
      rcases (hmax c hcO).2.2 with hp0 | ⟨a, haP, haS⟩
      · have := plen_lt_of_ssub (hv c hcO) hb.1 hs he
        omega
      · have := hb.2.1 a (hssub a haP)
        rw [haS] at this
        cases this

/-- Two strictly ordered block lists with the same members are equal. -/
theorem eq_of_sorted_mem_iff : ∀ (out1 out2 : List Network),
    out1.Pairwise (fun a b => a.broadcast < b.addr) →
    out2.Pairwise (fun a b => a.broadcast < b.addr) →
    (∀ b, b ∈ out1 ↔ b ∈ out2) → out1 = out2 := by
  intro out1
  induction out1 with
  | nil =>
    intro out2 _ _ hm
    cases out2 with
    | nil => rfl
    | cons n r2 => exact absurd ((hm n).mpr (List.mem_cons_self _ _)) (by simp)
  | cons m r1 ih =>
    intro out2 h1 h2 hm
    cases out2 with
    | nil => exact absurd ((hm m).mp (List.mem_cons_self _ _)) (by simp)
    | cons n r2 =>
      rw [List.pairwise_cons] at h1 h2
      have hme : m = n := by
        rcases List.mem_cons.mp ((hm m).mp (List.mem_cons_self _ _)) with he | hmr2
        · exact he
        · rcases List.mem_cons.mp ((hm n).mpr (List.mem_cons_self _ _)) with he | hnr1
          · exact he.symm
          · have ha := h1.1 n hnr1
            have hb := h2.1 m hmr2
            have := addr_le_broadcast m
            have := addr_le_broadcast n
            omega
      subst hme
      have htail : ∀ b, b ∈ r1 ↔ b ∈ r2 := by
        intro b
        constructor
        · intro hb
          rcases List.mem_cons.mp ((hm b).mp (List.mem_cons_of_mem _ hb)) with he | h
          · subst he
            have := h1.1 b hb
            have := addr_le_broadcast b
            omega
          · exact h
        · intro hb
          rcases List.mem_cons.mp ((hm b).mpr (List.mem_cons_of_mem _ hb)) with he | h
          · subst he
            have := h2.1 b hb
            have := addr_le_broadcast b
            omega
          · exact h
      rw [ih r2 h1.2 h2.2 htail]

/-! ## The full-width address path of `collapse_addresses` -/

theorem mem_insertNatSet (a b : Nat) : ∀ l : List Nat,
    (b ∈ insertNatSet a l ↔ b = a ∨ b ∈ l) := by
  intro l
  induction l with
  | nil => simp [insertNatSet]
  | cons c rest ih =>
    rw [insertNatSet]
    by_cases h1 : a < c
    · simp [h1]
    · rw [if_neg h1]
      by_cases h2 : a = c
      · subst h2
        rw [if_pos (by simp)]
        simp only [List.mem_cons]
        tauto
      · rw [if_neg (by simpa using h2)]
        simp only [List.mem_cons, ih]
        tauto

theorem insertNatSet_pairwise {a : Nat} : ∀ {l : List Nat},
    l.Pairwise (· < ·) → (insertNatSet a l).Pairwise (· < ·) := by
  intro l
  induction l with
  | nil => simp [insertNatSet]
  | cons c rest ih =>
    intro h
    rw [List.pairwise_cons] at h
    rw [insertNatSet]
    by_cases h1 : a < c
    · rw [if_pos h1, List.pairwise_cons]
      refine ⟨?_, List.pairwise_cons.mpr h⟩
      intro b hb
      rcases List.mem_cons.mp hb with rfl | hb
      · exact h1
      · exact h1.trans (h.1 b hb)
    · rw [if_neg h1]
      by_cases h2 : a = c
      · rw [if_pos (by simpa using h2), List.pairwise_cons]
        exact h
      · rw [if_neg (by simpa using h2), List.pairwise_cons]
        refine ⟨?_, ih h.2⟩
        intro b hb
        rcases (mem_insertNatSet a b rest).mp hb with rfl | hb
        · omega
        · exact h.1 b hb

theorem sortedSetOf_mem (b : Nat) : ∀ l : List Nat, (b ∈ sortedSetOf l ↔ b ∈ l) := by
  intro l
  induction l with
  | nil => simp [sortedSetOf]
  | cons a rest ih =>
    rw [sortedSetOf, mem_insertNatSet, ih]
    simp

theorem sortedSetOf_pairwise : ∀ l : List Nat, (sortedSetOf l).Pairwise (· < ·) := by
  intro l
  induction l with
  | nil => simp [sortedSetOf]
  | cons a rest ih => exact insertNatSet_pairwise ih

/-- Master lemma for the inner loop of `_find_address_range`: the emitted
ranges have endpoints drawn from the input and cover exactly the pending
range plus the remaining addresses. -/
theorem findRangesGo_master : ∀ (rest : List Nat) (first last : Nat),
    rest.Pairwise (· < ·) → (∀ r ∈ rest, last < r) → first ≤ last →
    (∀ fl ∈ findRangesGo first last rest,
      (fl.1 = first ∨ fl.1 ∈ rest) ∧ (fl.2 = last ∨ fl.2 ∈ rest) ∧ fl.1 ≤ fl.2) ∧
    (∀ x, ((first ≤ x ∧ x ≤ last) ∨ x ∈ rest) ↔
      ∃ fl ∈ findRangesGo first last rest, fl.1 ≤ x ∧ x ≤ fl.2) := by
  intro rest
  induction rest with
  | nil =>
    intro first last _ _ hfl
    constructor
    · intro fl hfl2
      rw [findRangesGo] at hfl2
      rcases List.mem_cons.mp hfl2 with rfl | h
      · exact ⟨Or.inl rfl, Or.inl rfl, hfl⟩
      · cases h
    · intro x
      rw [findRangesGo]
      simp
  | cons ip rest' ih =>
    intro first last hpw hgt hfl
    rw [List.pairwise_cons] at hpw
    have hlip : last < ip := hgt ip (List.mem_cons_self _ _)
    have hgt' : ∀ r ∈ rest', ip < r := hpw.1
    by_cases hstep : ip = last + 1
    · have hrw : findRangesGo first last (ip :: rest') = findRangesGo first ip rest' := by
        rw [findRangesGo, if_pos hstep]
      obtain ⟨ihb, ihc⟩ := ih first ip hpw.2 hgt' (by omega)
      rw [hrw]
      constructor
      · intro fl hfl2
        obtain ⟨b1, b2, b3⟩ := ihb fl hfl2
        refine ⟨?_, ?_, b3⟩
        · rcases b1 with h | h
          · exact Or.inl h
          · exact Or.inr (List.mem_cons_of_mem _ h)
        · rcases b2 with h | h
          · exact Or.inr (h ▸ List.mem_cons_self _ _)
          · exact Or.inr (List.mem_cons_of_mem _ h)
      · intro x
        rw [← ihc x]
        simp only [List.mem_cons]
        constructor
        · rintro (hr | rfl | hm)
          · exact Or.inl ⟨hr.1, by omega⟩
          · exact Or.inl ⟨by omega, le_refl _⟩
          · exact Or.inr hm
        · rintro (hr | hm)
          · by_cases hxl : x ≤ last
            · exact Or.inl ⟨hr.1, hxl⟩
            · right
              left
              omega
          · exact Or.inr (Or.inr hm)
    · have hrw : findRangesGo first last (ip :: rest') =
          (first, last) :: findRangesGo ip ip rest' := by
        rw [findRangesGo, if_neg hstep]
      obtain ⟨ihb, ihc⟩ := ih ip ip hpw.2 hgt' (le_refl _)
      rw [hrw]
      constructor
      · intro fl hfl2
        rcases List.mem_cons.mp hfl2 with rfl | h
        · exact ⟨Or.inl rfl, Or.inl rfl, hfl⟩
        · obtain ⟨b1, b2, b3⟩ := ihb fl h
          refine ⟨?_, ?_, b3⟩
          · rcases b1 with h' | h'
            · exact Or.inr (h' ▸ List.mem_cons_self _ _)
            · exact Or.inr (List.mem_cons_of_mem _ h')
          · rcases b2 with h' | h'
            · exact Or.inr (h' ▸ List.mem_cons_self _ _)
            · exact Or.inr (List.mem_cons_of_mem _ h')
      · intro x
        have hc := ihc x
        simp only [List.mem_cons]
        constructor
        · rintro (hr | rfl | hmem)
          · exact ⟨(first, last), Or.inl rfl, hr.1, hr.2⟩
          · obtain ⟨fl, hfl2, hx⟩ := hc.mp (Or.inl ⟨le_refl _, le_refl _⟩)
            exact ⟨fl, Or.inr hfl2, hx⟩
          · obtain ⟨fl, hfl2, hx⟩ := hc.mp (Or.inr hmem)
            exact ⟨fl, Or.inr hfl2, hx⟩
        · rintro ⟨fl, hfl2 | hfl2, hx⟩
          · rw [hfl2] at hx
            exact Or.inl hx
          · rcases hc.mpr ⟨fl, hfl2, hx⟩ with hr | hmem
            · right
              left
              omega
            · exact Or.inr (Or.inr hmem)

theorem ctzNat_dvd : ∀ (f n : Nat), 2 ^ ctzNat f n ∣ n := by
  intro f
  induction f with
  | zero => intro n; simp [ctzNat]
  | succ f ih =>
    intro n
    rw [ctzNat]
    by_cases hc : n % 2 = 1 ∨ n = 0
    · rw [if_pos (by simpa using hc)]
      simp
    · rw [if_neg (by simpa using hc)]
      push_neg at hc
      obtain ⟨c, hcd⟩ := ih (n / 2)
      have h2 : n = 2 * (n / 2) := by omega
      refine ⟨c, ?_⟩
      rw [pow_succ]
      conv_lhs => rw [h2, hcd]
      ring

theorem crzb_dvd (n bits : Nat) : 2 ^ count_righthand_zero_bits n bits ∣ n := by
  rw [count_righthand_zero_bits]
  by_cases h0 : n = 0
  · rw [if_pos (by simpa using h0), h0]
    exact Dvd.intro 0 rfl
  · rw [if_neg (by simpa using h0)]
    exact dvd_trans (Nat.pow_dvd_pow 2 (Nat.min_le_right _ _)) (ctzNat_dvd bits n)

theorem crzb_le (n bits : Nat) : count_righthand_zero_bits n bits ≤ bits := by
  rw [count_righthand_zero_bits]
  by_cases h0 : n = 0
  · rw [if_pos (by simpa using h0)]
  · rw [if_neg (by simpa using h0)]
    exact Nat.min_le_left _ _

theorem bitLength_pow_le {m : Nat} (h : 1 ≤ m) : 2 ^ (bitLength m - 1) ≤ m := by
  rw [bitLength, if_neg (by omega)]
  simpa using Nat.log2_self_le (by omega)

/-- The `summarize_address_range` loop produces canonical width-`w` networks
covering exactly `[first, last]`. -/
theorem summarizeAux_master {w : Nat} : ∀ (fuel first last : Nat),
    last + 1 - first ≤ fuel → last < 2 ^ w →
    allVW w (summarizeAux w fuel first last) ∧
    (∀ x, coveredB (summarizeAux w fuel first last) x = true ↔
      first ≤ x ∧ x ≤ last) := by
  intro fuel
  induction fuel with
  | zero =>
    intro first last hfuel hlt
    refine ⟨(by intro n hn; cases hn), ?_⟩
    intro x
    simp only [summarizeAux, coveredB, List.any_nil]
    constructor
    · intro h
      simp at h
    · intro h
      omega
  | succ fuel ih =>
    intro first last hfuel hlt
    by_cases hle : first ≤ last
    · have hstep : summarizeAux w (fuel + 1) first last =
          ⟨w, first, w - min (count_righthand_zero_bits first w)
            (bitLength (last - first + 1) - 1)⟩ ::
          summarizeAux w fuel
            (first + 2 ^ min (count_righthand_zero_bits first w)
              (bitLength (last - first + 1) - 1)) last := by
        rw [summarizeAux, if_pos hle]
      set nbits := min (count_righthand_zero_bits first w)
        (bitLength (last - first + 1) - 1) with hnb
      have hnbw : nbits ≤ w := le_trans (Nat.min_le_left _ _) (crzb_le _ _)
      have hdvd : 2 ^ nbits ∣ first :=
        dvd_trans (Nat.pow_dvd_pow 2 (Nat.min_le_left _ _)) (crzb_dvd first w)
      have hsz : 2 ^ nbits ≤ last - first + 1 := by
        have h1 : 2 ^ nbits ≤ 2 ^ (bitLength (last - first + 1) - 1) :=
          Nat.pow_le_pow_right (by omega) (Nat.min_le_right _ _)
        have h2 : 2 ^ (bitLength (last - first + 1) - 1) ≤ last - first + 1 :=
          bitLength_pow_le (by omega)
        omega
      have hflt : first < 2 ^ w := by omega
      have hvhead : VW w (⟨w, first, w - nbits⟩ : Network) := by
        refine ⟨(valid_iff _).mpr ⟨?_, ?_, ?_⟩, rfl⟩
        · show w - nbits ≤ w
          omega
        · show first < 2 ^ w
          exact hflt
        show first % 2 ^ (w - (w - nbits)) = 0
        have he : w - (w - nbits) = nbits := by omega
        rw [he]
        obtain ⟨c, hc⟩ := hdvd
        rw [hc]
        exact Nat.mul_mod_right _ _
      have hsz1 : (⟨w, first, w - nbits⟩ : Network).size = 2 ^ nbits := by
        rw [hvhead.size_eq]
        congr 1
        show w - (w - nbits) = nbits
        omega
      have hpos : (0:Nat) < 2 ^ nbits := Nat.pos_pow_of_pos _ (by omega)
      obtain ⟨ihv, ihc⟩ := ih (first + 2 ^ nbits) last (by omega) hlt
      rw [hstep]
      constructor
      · exact allVW_cons.mpr ⟨hvhead, ihv⟩
      · intro x
        rw [coveredB_cons, Bool.or_eq_true, ihc x, memB_iff_lt, hsz1]
        show ((first ≤ x ∧ x < first + 2 ^ nbits) ∨
          (first + 2 ^ nbits ≤ x ∧ x ≤ last)) ↔ (first ≤ x ∧ x ≤ last)
        omega
    · rw [summarizeAux, if_neg hle]
      refine ⟨(by intro n hn; cases hn), ?_⟩
      intro x
      simp only [coveredB, List.any_nil]
      constructor
      · intro h
        simp at h
      · intro h
        omega

theorem summarize_range_master {w first last : Nat} (hlt : last < 2 ^ w) :
    allVW w (summarize_address_range w first last) ∧
    (∀ x, coveredB (summarize_address_range w first last) x = true ↔
      first ≤ x ∧ x ≤ last) :=
  summarizeAux_master (last + 1 - first) first last (le_refl _) hlt

theorem find_address_range_master {l : List Nat} (hpw : l.Pairwise (· < ·)) :
    (∀ fl ∈ find_address_range l, fl.1 ∈ l ∧ fl.2 ∈ l ∧ fl.1 ≤ fl.2) ∧
    (∀ x, x ∈ l ↔ ∃ fl ∈ find_address_range l, fl.1 ≤ x ∧ x ≤ fl.2) := by
  cases l with
  | nil =>
    constructor
    · intro fl hfl
      cases hfl
    · intro x
      simp [find_address_range]
  | cons a rest =>
    rw [List.pairwise_cons] at hpw
    obtain ⟨hb, hc⟩ := findRangesGo_master rest a a hpw.2 hpw.1 (le_refl _)
    have hrw : find_address_range (a :: rest) = findRangesGo a a rest := rfl
    rw [hrw]
    constructor
    · intro fl hfl
      obtain ⟨b1, b2, b3⟩ := hb fl hfl
      refine ⟨?_, ?_, b3⟩
      · rcases b1 with h | h
        · exact h ▸ List.mem_cons_self _ _
        · exact List.mem_cons_of_mem _ h
      · rcases b2 with h | h
        · exact h ▸ List.mem_cons_self _ _
        · exact List.mem_cons_of_mem _ h
    · intro x
      rw [← hc x]
      simp only [List.mem_cons]
      constructor
      · rintro (rfl | h)
        · exact Or.inl ⟨le_refl _, le_refl _⟩
        · exact Or.inr h
      · rintro (h | h)
        · left
          omega
        · exact Or.inr h

theorem coveredB_filter_split (xs : List Network) (p : Network → Bool) (a : Nat) :
    coveredB xs a = (coveredB (xs.filter p) a ||
      coveredB (xs.filter (fun n => !(p n))) a) := by
  rw [Bool.eq_iff_iff, Bool.or_eq_true, coveredB_iff, coveredB_iff, coveredB_iff]
  constructor
  · rintro ⟨n, hn, hm⟩
    cases hp : p n
    · exact Or.inr ⟨n, List.mem_filter.mpr ⟨hn, by rw [hp]; rfl⟩, hm⟩
    · exact Or.inl ⟨n, List.mem_filter.mpr ⟨hn, hp⟩, hm⟩
  · rintro (⟨n, hn, hm⟩ | ⟨n, hn, hm⟩) <;> exact ⟨n, (List.mem_filter.mp hn).1, hm⟩

theorem memB_fullwidth {w : Nat} {n : Network} (hv : VW w n)
    (hp : n.prefixlen = n.width) (x : Nat) : memB x n = true ↔ x = n.addr := by
  rw [memB_iff_lt, hv.size_eq, hp, hv.width_eq]
  simp only [Nat.sub_self, pow_zero]
  omega

theorem coveredB_flatMap {α : Type} (l : List α) (f : α → List Network)
    (a : Nat) : coveredB (l.flatMap f) a = true ↔
      ∃ b ∈ l, coveredB (f b) a = true := by
  rw [coveredB_iff]
  constructor
  · rintro ⟨n, hn, hm⟩
    obtain ⟨b, hb, hnb⟩ := List.mem_flatMap.mp hn
    exact ⟨b, hb, (coveredB_iff _ _).mpr ⟨n, hnb, hm⟩⟩
  · rintro ⟨b, hb, hc⟩
    obtain ⟨n, hnb, hm⟩ := (coveredB_iff _ _).mp hc
    exact ⟨n, List.mem_flatMap.mpr ⟨b, hb, hnb⟩, hm⟩

/-- Master theorem for `collapse_addresses` on a single-family canonical
input: the output is canonical, strictly ordered (hence disjoint and
duplicate-free), covers exactly the input's address space, and no two
members share a parent. -/
theorem collapse_master {w : Nat} {xs : List Network} (hv : allVW w xs) :
    allVW w (collapse_addresses w xs) ∧
    (collapse_addresses w xs).Pairwise (fun a b => a.broadcast < b.addr) ∧
    (∀ a, coveredB (collapse_addresses w xs) a = coveredB xs a) ∧
    ((collapse_addresses w xs).map Network.supernet).Nodup := by
  have hrw : collapse_addresses w xs = collapse_addresses_internal
      (((find_address_range (sortedSetOf
          ((xs.filter (fun n => n.prefixlen == n.width)).map Network.addr))).flatMap
        (fun fl => summarize_address_range w fl.1 fl.2)) ++
        xs.filter (fun n => n.prefixlen != n.width)) := rfl
  set IPS := (xs.filter (fun n => n.prefixlen == n.width)).map Network.addr
    with hIPS
  set SL := sortedSetOf IPS with hSL
  set ADDRS := (find_address_range SL).flatMap
    (fun fl => summarize_address_range w fl.1 fl.2) with hADDRS
  set NETS := xs.filter (fun n => n.prefixlen != n.width) with hNETS
  have hIPSlt : ∀ i ∈ IPS, i < 2 ^ w := by
    intro i hi
    obtain ⟨n, hn, rfl⟩ := List.mem_map.mp hi
    exact (hv n (List.mem_filter.mp hn).1).addr_lt
  obtain ⟨hfb, hfc⟩ := find_address_range_master (sortedSetOf_pairwise IPS)
  have hrange2 : ∀ fl ∈ find_address_range SL, fl.2 < 2 ^ w := by
    intro fl hfl
    exact hIPSlt fl.2 ((sortedSetOf_mem fl.2 IPS).mp (hfb fl hfl).2.1)
  have hA_VW : allVW w ADDRS := by
    intro c hc
    obtain ⟨fl, hfl, hcf⟩ := List.mem_flatMap.mp hc
    exact (summarize_range_master (hrange2 fl hfl)).1 c hcf
  have hA_cov : ∀ a, (coveredB ADDRS a = true ↔ a ∈ IPS) := by
    intro a
    rw [coveredB_flatMap]
    constructor
    · rintro ⟨fl, hfl, hc⟩
      have := ((summarize_range_master (hrange2 fl hfl)).2 a).mp hc
      exact (sortedSetOf_mem a IPS).mp ((hfc a).mpr ⟨fl, hfl, this⟩)
    · intro ha
      obtain ⟨fl, hfl, hx⟩ := (hfc a).mp ((sortedSetOf_mem a IPS).mpr ha)
      exact ⟨fl, hfl, ((summarize_range_master (hrange2 fl hfl)).2 a).mpr hx⟩
  have hF_cov : ∀ a, (coveredB (xs.filter (fun n => n.prefixlen == n.width)) a
      = true ↔ a ∈ IPS) := by
    intro a
    rw [coveredB_iff]
    constructor
    · rintro ⟨n, hn, hm⟩
      have hp : n.prefixlen = n.width := by
        have := (List.mem_filter.mp hn).2
        simpa using this
      have := (memB_fullwidth (hv n (List.mem_filter.mp hn).1) hp a).mp hm
      exact List.mem_map.mpr ⟨n, hn, this.symm⟩
    · intro ha
      obtain ⟨n, hn, hna⟩ := List.mem_map.mp ha
      have hp : n.prefixlen = n.width := by
        have := (List.mem_filter.mp hn).2
        simpa using this
      exact ⟨n, hn, (memB_fullwidth (hv n (List.mem_filter.mp hn).1) hp a).mpr
        hna.symm⟩
  have htotal : ∀ a, coveredB (ADDRS ++ NETS) a = coveredB xs a := by
    intro a
    rw [coveredB_append]
    have hsplit := coveredB_filter_split xs (fun n => n.prefixlen == n.width) a
    have hbne : xs.filter (fun n => !(n.prefixlen == n.width)) = NETS := rfl
    rw [hbne] at hsplit
    rw [hsplit]
    have hAF : coveredB ADDRS a =
        coveredB (xs.filter (fun n => n.prefixlen == n.width)) a := by
      rw [Bool.eq_iff_iff, hA_cov a, hF_cov a]
    rw [hAF]
  have hvAN : allVW w (ADDRS ++ NETS) := by
    intro n hn
    rcases List.mem_append.mp hn with h | h
    · exact hA_VW n h
    · exact hv n (List.mem_filter.mp h).1
  obtain ⟨i1, i2, i3, i4⟩ := internal_master hvAN
  rw [hrw]
  exact ⟨i1, i2, fun a => (i3 a).trans (htotal a), i4⟩

theorem maxBlock_congr {w : Nat} {S S' : Nat → Bool}
    (hS : ∀ a, S a = S' a) {b : Network} (h : maxBlock w S b) :
    maxBlock w S' b := by
  refine ⟨h.1, ?_, ?_⟩
  · intro a ha
    rw [← hS a]
    exact h.2.1 a ha
  · rcases h.2.2 with h0 | ⟨a, h1, h2⟩
    · exact Or.inl h0
    · exact Or.inr ⟨a, h1, by rw [← hS a]; exact h2⟩

/-- Membership in the collapsed list is exactly being a maximal block of the
input's address space. -/
theorem collapse_mem_iff {w : Nat} {xs : List Network} (hv : allVW w xs)
    (b : Network) : b ∈ collapse_addresses w xs ↔
      maxBlock w (coveredB xs) b := by
  obtain ⟨c1, c2, c3, c4⟩ := collapse_master hv
  have hdisj := pairwise_forall_disjoint (pairwise_disjoint_of_brdlt c2)
  have hsupne := pairwise_forall_supernet_ne c4
  constructor
  · intro hb
    exact mem_is_maxBlock c1 hdisj hsupne c3 hb
  · intro hb
    exact maxBlock_mem c1 hdisj
      (fun c hc => mem_is_maxBlock c1 hdisj hsupne c3 hc) c3 hb

/-- The collapsed list depends only on the covered address space. -/
theorem collapse_canonical {w : Nat} {xs ys : List Network} (hvx : allVW w xs)
    (hvy : allVW w ys) (hS : ∀ a, coveredB xs a = coveredB ys a) :
    collapse_addresses w xs = collapse_addresses w ys := by
  obtain ⟨_, cx2, _, _⟩ := collapse_master hvx
  obtain ⟨_, cy2, _, _⟩ := collapse_master hvy
  apply eq_of_sorted_mem_iff _ _ cx2 cy2
  intro b
  rw [collapse_mem_iff hvx, collapse_mem_iff hvy]
  constructor
  · exact maxBlock_congr hS
  · exact maxBlock_congr (fun a => (hS a).symm)

/-- Idempotence of the collapse step. -/
theorem collapse_idem {w : Nat} {xs : List Network} (hv : allVW w xs) :
    collapse_addresses w (collapse_addresses w xs) = collapse_addresses w xs := by
  obtain ⟨c1, _, c3, _⟩ := collapse_master hv
  calc collapse_addresses w (collapse_addresses w xs)
      = collapse_addresses w xs := collapse_canonical c1 hv c3

theorem nodup_length_le {l l' : List Network} (hnd : l.Nodup)
    (hsub : ∀ x ∈ l, x ∈ l') : l.length ≤ l'.length := by
  classical
  have h1 : l.toFinset.card = l.length := List.toFinset_card_of_nodup hnd
  have h2 : l.toFinset ⊆ l'.toFinset := by
    intro x hx
    rw [List.mem_toFinset] at hx ⊢
    exact hsub x hx
  have h3 := Finset.card_le_card h2
  have h4 := l'.toFinset_card_le
  omega

/-- Minimality: no disjoint canonical family covering the same space has
fewer members than the collapsed list. -/
theorem collapse_minimal {w : Nat} {xs : List Network} (hv : allVW w xs)
    {ys : List Network} (hvy : allVW w ys)
    (hdy : ∀ m ∈ ys, ∀ n ∈ ys, m ≠ n → DisjointN m n)
    (hsame : ∀ a, coveredB ys a = coveredB xs a) :
    (collapse_addresses w xs).length ≤ ys.length := by
  classical
  obtain ⟨c1, c2, c3, c4⟩ := collapse_master hv
  have hnd : (collapse_addresses w xs).Nodup := nodup_of_brdlt c2
  have hodisj := pairwise_forall_disjoint (pairwise_disjoint_of_brdlt c2)
  set f : Network → Network := fun b =>
    if h : ∃ u, u ∈ ys ∧ memB b.addr u = true then h.choose else b with hf
  have hex : ∀ b ∈ collapse_addresses w xs, ∃ u, u ∈ ys ∧ memB b.addr u = true := by
    intro b hb
    have h1 : coveredB (collapse_addresses w xs) b.addr = true :=
      (coveredB_iff _ _).mpr ⟨b, hb, memB_addr b⟩
    rw [c3, ← hsame, coveredB_iff] at h1
    obtain ⟨u, hu, hum⟩ := h1
    exact ⟨u, hu, hum⟩
  have hfmem : ∀ b ∈ collapse_addresses w xs, f b ∈ ys ∧ memB b.addr (f b) = true := by
    intro b hb
    rw [hf]
    simp only
    rw [dif_pos (hex b hb)]
    exact (hex b hb).choose_spec
  have hfsub : ∀ b ∈ collapse_addresses w xs, SubsetN (f b) b := by
    intro b hb
    obtain ⟨hu, hum⟩ := hfmem b hb
    have hmax := (collapse_mem_iff hv b).mp hb
    rcases nested_or_disjoint (hvy (f b) hu) hmax.1 hum (memB_addr b) with hs | hs
    · exact hs
    · by_cases he : b = f b
      · rw [← he]
        exact fun y hy => hy
      · exfalso
        have hssub := ssub_supernet hmax.1 (hvy (f b) hu) hs he
        rcases hmax.2.2 with hp0 | ⟨a, haP, haS⟩
        · have := plen_lt_of_ssub hmax.1 (hvy (f b) hu) hs he
          omega
        · have h1 : coveredB ys a = true :=
            (coveredB_iff _ _).mpr ⟨f b, hu, hssub a haP⟩
          rw [hsame] at h1
          rw [haS] at h1
          cases h1
  have hinj : ∀ x ∈ collapse_addresses w xs, ∀ y ∈ collapse_addresses w xs,
      f x = f y → x = y := by
    intro x hx y hy hxy
    by_contra hne
    have hd := hodisj x hx y hy hne
    have h1 : memB (f x).addr x = true := hfsub x hx (f x).addr (memB_addr (f x))
    have h2 : memB (f x).addr y = true := by
      rw [hxy]
      exact hfsub y hy (f y).addr (memB_addr (f y))
    rw [hd (f x).addr h1] at h2
    cases h2
  have hmapnd : ((collapse_addresses w xs).map f).Nodup :=
    List.Nodup.map_on hinj hnd
  have hmaplen : ((collapse_addresses w xs).map f).length =
      (collapse_addresses w xs).length := List.length_map _ _
  have hmapsub : ∀ u ∈ (collapse_addresses w xs).map f, u ∈ ys := by
    intro u hu
    obtain ⟨b, hb, rfl⟩ := List.mem_map.mp hu
    exact (hfmem b hb).1
  have := nodup_length_le hmapnd hmapsub
  omega

/-! ## `overlaps`, `subnet_of`, `address_exclude` -/

theorem coveredB_nil (a : Nat) : coveredB [] a = false := rfl

theorem overlaps_ne_width {b c : Network} (h : b.width ≠ c.width) :
    b.overlaps c = false := by
  have h1 : (c.width == b.width) = false := by
    simp
    exact fun he => h he.symm
  have h2 : (b.width == c.width) = false := by
    simp
    exact h
  simp only [Network.overlaps, Network.containsAddr, h1, h2, Bool.false_and,
    Bool.or_self]

theorem overlaps_iff {w : Nat} {b c : Network} (hb : VW w b) (hc : VW w c) :
    b.overlaps c = true ↔ ∃ x, memB x b = true ∧ memB x c = true := by
  have hbw := hb.width_eq
  have hcw := hc.width_eq
  simp only [Network.overlaps, Network.containsAddr, hbw, hcw, beq_self_eq_true,
    Bool.true_and, Bool.or_eq_true, Bool.and_eq_true, decide_eq_true_eq]
  constructor
  · rintro (((h | h) | h) | h)
    · exact ⟨b.addr, memB_addr b, (memB_iff _ _).mpr ⟨h.1, h.2⟩⟩
    · exact ⟨b.broadcast, memB_broadcast b, (memB_iff _ _).mpr ⟨h.1, h.2⟩⟩
    · exact ⟨c.addr, (memB_iff _ _).mpr ⟨h.1, h.2⟩, memB_addr c⟩
    · exact ⟨c.broadcast, (memB_iff _ _).mpr ⟨h.1, h.2⟩, memB_broadcast c⟩
  · rintro ⟨x, hx1, hx2⟩
    rw [memB_iff] at hx1 hx2
    rcases le_total b.addr c.addr with h | h
    · exact Or.inl (Or.inr ⟨by omega, by omega⟩)
    · exact Or.inl (Or.inl (Or.inl ⟨by omega, by omega⟩))

theorem subnet_of_iff {w : Nat} {b c : Network} (hb : VW w b) (hc : VW w c) :
    b.subnet_of c = true ↔ SubsetN b c := by
  have hbw := hb.width_eq
  have hcw := hc.width_eq
  simp only [Network.subnet_of, hbw, hcw, beq_self_eq_true, Bool.true_and,
    Bool.and_eq_true, decide_eq_true_eq, subsetN_iff]

theorem supernet_of_iff {w : Nat} {b c : Network} (hb : VW w b) (hc : VW w c) :
    b.supernet_of c = true ↔ SubsetN c b := by
  rw [Network.supernet_of]
  exact subnet_of_iff hc hb

/-- Master lemma for the `while s1 != other` loop of `address_exclude`: on
canonical inputs with `other` strictly inside the parent of the two halves,
it returns canonical networks covering exactly parent minus `other`. -/
theorem excludeLoop_master {w : Nat} : ∀ (fuel : Nat) (other P : Network),
    VW w other → VW w P → P.prefixlen < w → SubsetN other P → other ≠ P →
    other.prefixlen - P.prefixlen ≤ fuel →
    allVW w (excludeLoop other fuel P.half0 P.half1) ∧
    (∀ x, coveredB (excludeLoop other fuel P.half0 P.half1) x =
      (memB x P && !memB x other)) := by
  intro fuel
  induction fuel with
  | zero =>
    intro other P ho hP hlt hsub hne hfuel
    exfalso
    have := plen_lt_of_ssub ho hP hsub hne
    omega
  | succ fuel ih =>
    intro other P ho hP hlt hsub hne hfuel
    have hplt := plen_lt_of_ssub ho hP hsub hne
    have h0v := half0_VW hP hlt
    have h1v := half1_VW hP hlt
    have h0p : P.half0.prefixlen = P.prefixlen + 1 := rfl
    have h1p : P.half1.prefixlen = P.prefixlen + 1 := rfl
    have hdisj := half_disjoint hP hlt
    have hou := half_union hP hlt other.addr
    rw [hsub other.addr (memB_addr other)] at hou
    have hside : SubsetN other P.half0 ∨ SubsetN other P.half1 := by
      rcases (Bool.or_eq_true _ _).mp hou.symm with h | h
      · exact Or.inl (subset_of_common ho h0v (by omega) (memB_addr other) h)
      · exact Or.inr (subset_of_common ho h1v (by omega) (memB_addr other) h)
    have hunion := half_union hP hlt
    rcases hside with hin | hin
    · -- `other` sits in the lower half
      have hdisj1 : ∀ x, memB x other = true → memB x P.half1 = false :=
        fun x hx => hdisj x (hin x hx)
      by_cases he0 : P.half0 = other
      · have hg : ¬(P.half0 ≠ other ∧ P.half1 ≠ other) := by
          intro hg
          exact hg.1 he0
        rw [excludeLoop, if_neg hg, if_pos he0]
        refine ⟨allVW_cons.mpr ⟨h1v, by intro n hn; cases hn⟩, ?_⟩
        intro x
        rw [coveredB_cons, hunion x, ← he0]
        have hd := hdisj x
        cases h0 : memB x P.half0 <;> cases h1 : memB x P.half1 <;> simp_all [coveredB_nil]
      · have hne1 : P.half1 ≠ other := by
          intro he
          have h1 : memB other.addr P.half1 = true := by
            rw [he]
            exact memB_addr other
          have h2 := hdisj other.addr (hin other.addr (memB_addr other))
          rw [h2] at h1
          simp at h1
        have hg : P.half0 ≠ other ∧ P.half1 ≠ other := ⟨he0, hne1⟩
        rw [excludeLoop, if_pos hg]
        have hsb : other.subnet_of P.half0 = true :=
          (subnet_of_iff ho h0v).mpr hin
        rw [if_pos hsb]
        have hlt0 : P.half0.prefixlen < w := by
          have := plen_lt_of_ssub ho h0v hin (fun he => he0 he.symm)
          have := ho.plen_le
          omega
        obtain ⟨ihv, ihc⟩ := ih other P.half0 ho h0v hlt0 hin
          (fun he => he0 he.symm) (by omega)
        refine ⟨allVW_cons.mpr ⟨h1v, ihv⟩, ?_⟩
        intro x
        rw [coveredB_cons, ihc x, hunion x]
        have hd := hdisj x
        have hd1 := hdisj1 x
        cases h0 : memB x P.half0 <;> cases h1 : memB x P.half1 <;>
          cases hox : memB x other <;> simp_all [coveredB_nil]
    · -- `other` sits in the upper half
      have hdisj0 : ∀ x, memB x other = true → memB x P.half0 = false := by
        intro x hx
        cases h0 : memB x P.half0
        · rfl
        · have := hdisj x h0
          rw [hin x hx] at this
          cases this
      by_cases he1 : P.half1 = other
      · by_cases he0 : P.half0 = other
        · exfalso
          exact (half0_ne_half1 hP hlt) (he0.trans he1.symm)
        · have hg : ¬(P.half0 ≠ other ∧ P.half1 ≠ other) := by
            intro hg
            exact hg.2 he1
          rw [excludeLoop, if_neg hg, if_neg he0]
          refine ⟨allVW_cons.mpr ⟨h0v, by intro n hn; cases hn⟩, ?_⟩
          intro x
          rw [coveredB_cons, hunion x, ← he1]
          have hd := hdisj x
          cases h0 : memB x P.half0 <;> cases h1 : memB x P.half1 <;> simp_all [coveredB_nil]
      · have hne0 : P.half0 ≠ other := by
          intro he
          have h1 := hin other.addr (memB_addr other)
          have h2 := hdisj other.addr
          rw [he] at h2
          rw [h2 (memB_addr other)] at h1
          cases h1
        have hg : P.half0 ≠ other ∧ P.half1 ≠ other := ⟨hne0, he1⟩
        rw [excludeLoop, if_pos hg]
        have hsb0 : other.subnet_of P.half0 = false := by
          cases hsb : other.subnet_of P.half0
          · rfl
          · exfalso
            have hs := (subnet_of_iff ho h0v).mp hsb
            have h1 := hdisj0 other.addr (memB_addr other)
            rw [hs other.addr (memB_addr other)] at h1
            cases h1
        rw [if_neg (show ¬(other.subnet_of P.half0 = true) by rw [hsb0]; simp)]
        have hsb1 : other.subnet_of P.half1 = true :=
          (subnet_of_iff ho h1v).mpr hin
        rw [if_pos hsb1]
        have hlt1 : P.half1.prefixlen < w := by
          have := plen_lt_of_ssub ho h1v hin (fun he => he1 he.symm)
          have := ho.plen_le
          omega
        obtain ⟨ihv, ihc⟩ := ih other P.half1 ho h1v hlt1 hin
          (fun he => he1 he.symm) (by omega)
        refine ⟨allVW_cons.mpr ⟨h0v, ihv⟩, ?_⟩
        intro x
        rw [coveredB_cons, ihc x, hunion x]
        have hd := hdisj x
        have hd0 := hdisj0 x
        cases h0 : memB x P.half0 <;> cases h1 : memB x P.half1 <;>
          cases hox : memB x other <;> simp_all [coveredB_nil]

/-- `address_exclude` on a canonical strict subnet: it succeeds and returns
canonical networks covering exactly `self` minus `other`. -/
theorem address_exclude_master {w : Nat} {self other : Network} (hs : VW w self)
    (ho : VW w other) (hsub : SubsetN other self) (hne : other ≠ self) :
    ∃ l, self.address_exclude other = some l ∧ allVW w l ∧
      (∀ x, coveredB l x = (memB x self && !memB x other)) := by
  have hplt := plen_lt_of_ssub ho hs hsub hne
  have hsltw : self.prefixlen < w := by
    have := ho.plen_le
    omega
  have hrw : self.address_exclude other =
      some (excludeLoop other (other.prefixlen + 1) self.half0 self.half1) := by
    rw [Network.address_exclude]
    rw [if_neg (by rw [hs.width_eq, ho.width_eq]; simp)]
    rw [if_neg (by rw [(subnet_of_iff ho hs).mpr hsub]; simp)]
    rw [if_neg hne]
    rw [if_neg (by rw [hs.width_eq]; omega)]
  obtain ⟨hv, hc⟩ := excludeLoop_master (other.prefixlen + 1) other self ho hs
    hsltw hsub hne (by omega)
  exact ⟨_, hrw, hv, hc⟩

/-- One candidate against one whitelist network of the same family. -/
theorem excludeCandidate_master {w : Nat} {wl cand : Network} (hc : VW w cand)
    (hw : VW w wl) :
    allVW w (excludeCandidate wl cand) ∧
    (∀ x, coveredB (excludeCandidate wl cand) x =
      (memB x cand && !memB x wl)) := by
  rw [excludeCandidate]
  by_cases hov : cand.overlaps wl = true
  · rw [if_neg (by rw [hov]; simp)]
    by_cases hcov : wl.supernet_of cand = true ∨ wl == cand
    · rw [if_pos (by rcases hcov with h | h <;> simp [h])]
      have hsub : SubsetN cand wl := by
        rcases hcov with h | h
        · exact (supernet_of_iff hw hc).mp h
        · have : wl = cand := by simpa using h
          rw [this]
          exact fun y hy => hy
      refine ⟨(by intro n hn; cases hn), ?_⟩
      intro x
      rw [coveredB_nil]
      cases hx : memB x cand
      · rfl
      · rw [hsub x hx]
        rfl
    · push_neg at hcov
      rw [if_neg (by
        intro hor
        rcases Bool.or_eq_true _ _ |>.mp hor with h | h
        · exact hcov.1 h
        · exact hcov.2 h)]
      have hwsub : SubsetN wl cand ∧ wl ≠ cand := by
        obtain ⟨x, hx1, hx2⟩ := (overlaps_iff hc hw).mp hov
        rcases nested_or_disjoint hc hw hx1 hx2 with hs | hs
        · exfalso
          exact hcov.1 ((supernet_of_iff hw hc).mpr hs)
        · refine ⟨hs, ?_⟩
          intro he
          exact hcov.2 (beq_iff_eq.mpr he)
      obtain ⟨l, hl, hlv, hlc⟩ := address_exclude_master hc hw hwsub.1 hwsub.2
      rw [hl]
      exact ⟨hlv, hlc⟩
  · rw [if_pos (by rw [Bool.not_eq_true] at hov; rw [hov]; simp)]
    refine ⟨allVW_cons.mpr ⟨hc, by intro n hn; cases hn⟩, ?_⟩
    intro x
    rw [coveredB_cons, coveredB_nil]
    have hno : ¬ ∃ y, memB y cand = true ∧ memB y wl = true := by
      intro hex
      exact absurd ((overlaps_iff hc hw).mpr hex) (by simpa using hov)
    cases hx : memB x cand
    · rfl
    · have hxw : memB x wl = false := by
        cases hxw : memB x wl
        · rfl
        · exact absurd ⟨x, hx, hxw⟩ hno
      rw [hxw]
      rfl

/-- A whitelist network of the other family never changes a candidate. -/
theorem excludeCandidate_other_family {wl cand : Network}
    (h : wl.width ≠ cand.width) : excludeCandidate wl cand = [cand] := by
  rw [excludeCandidate,
    if_pos (by rw [overlaps_ne_width (fun he => h he.symm)]; simp)]

theorem stepWl_same {w : Nat} {cands : List Network} {wl : Network}
    (hv : allVW w cands) (hw : VW w wl) :
    allVW w (stepWl cands wl) ∧
    (∀ x, coveredB (stepWl cands wl) x = (coveredB cands x && !memB x wl)) := by
  induction cands with
  | nil =>
    exact ⟨(by intro n hn; cases hn), fun x => rfl⟩
  | cons c rest ih =>
    obtain ⟨hcv, hrv⟩ := allVW_cons.mp hv
    obtain ⟨ih1, ih2⟩ := ih hrv
    have hstep : stepWl (c :: rest) wl =
        excludeCandidate wl c ++ stepWl rest wl := by
      rw [stepWl, stepWl, List.flatMap_cons]
    obtain ⟨e1, e2⟩ := excludeCandidate_master hcv hw
    rw [hstep]
    constructor
    · intro n hn
      rcases List.mem_append.mp hn with h | h
      · exact e1 n h
      · exact ih1 n h
    · intro x
      rw [coveredB_append, e2 x, ih2 x, coveredB_cons]
      cases memB x c <;> cases coveredB rest x <;> cases memB x wl <;> rfl

theorem stepWl_other_family {w : Nat} {cands : List Network} {wl : Network}
    (hv : allVW w cands) (hne : wl.width ≠ w) : stepWl cands wl = cands := by
  induction cands with
  | nil => rfl
  | cons c rest ih =>
    obtain ⟨hcv, hrv⟩ := allVW_cons.mp hv
    have hstep : stepWl (c :: rest) wl =
        excludeCandidate wl c ++ stepWl rest wl := by
      rw [stepWl, stepWl, List.flatMap_cons]
    rw [hstep, excludeCandidate_other_family (by rw [hcv.width_eq]; exact hne),
      ih hrv]
    rfl

/-- The whitelist fold: candidates end up covering their original space
minus every same-family whitelist network. -/
theorem foldWl_master {w : Nat} : ∀ (W : List Network),
    (∀ wl ∈ W, wl.width = w → VW w wl) → ∀ (cands : List Network),
    allVW w cands →
    allVW w (W.foldl stepWl cands) ∧
    (∀ x, coveredB (W.foldl stepWl cands) x =
      (coveredB cands x && !coveredB (W.filter (fun wl => wl.width == w)) x)) := by
  intro W
  induction W with
  | nil =>
    intro _ cands hv
    refine ⟨hv, ?_⟩
    intro x
    show coveredB cands x = (coveredB cands x && !coveredB [] x)
    rw [coveredB_nil]
    cases coveredB cands x <;> rfl
  | cons wl W' ih =>
    intro hW cands hv
    have hW' : ∀ u ∈ W', u.width = w → VW w u :=
      fun u hu => hW u (List.mem_cons_of_mem _ hu)
    by_cases hwl : wl.width = w
    · obtain ⟨s1, s2⟩ := stepWl_same hv (hW wl (List.mem_cons_self _ _) hwl)
      obtain ⟨f1, f2⟩ := ih hW' (stepWl cands wl) s1
      have hfold : (wl :: W').foldl stepWl cands = W'.foldl stepWl (stepWl cands wl) := rfl
      have hfilter : (wl :: W').filter (fun u => u.width == w) =
          wl :: W'.filter (fun u => u.width == w) := by
        rw [List.filter_cons, if_pos (by simp [hwl])]
      rw [hfold, hfilter]
      refine ⟨f1, ?_⟩
      intro x
      rw [f2 x, s2 x, coveredB_cons]
      cases coveredB cands x <;> cases memB x wl <;>
        cases coveredB (W'.filter (fun u => u.width == w)) x <;> rfl
    · have hfold : (wl :: W').foldl stepWl cands = W'.foldl stepWl (stepWl cands wl) := rfl
      rw [hfold, stepWl_other_family hv hwl]
      have hfilter : (wl :: W').filter (fun u => u.width == w) =
          W'.filter (fun u => u.width == w) := by
        rw [List.filter_cons, if_neg (by simp [hwl])]
      rw [hfilter]
      exact ih hW' cands hv

/-! ## The whitelist excluder `optimize_and_filter` as a whole -/

theorem map_flatten_eq_flatMap (l : List Network) (f : Network → List Network) :
    (l.map f).flatten = l.flatMap f := by
  induction l with
  | nil => rfl
  | cons b t ih => rw [List.map_cons, List.flatten_cons, List.flatMap_cons, ih]

theorem filter_width_eq {w : Nat} {W : List Network} (hW : allVW w W) :
    W.filter (fun wl => wl.width == w) = W := by
  rw [List.filter_eq_self]
  intro wl hwl
  simp [(hW wl hwl).2]

/-- Master theorem for `optimize_and_filter`: the output is canonical,
strictly ordered, a collapse fixed point, and covers exactly the input's
address space minus the space of the same-family whitelist entries. -/
theorem optimize_master {w : Nat} {B W : List Network} (hB : allVW w B)
    (hW : ∀ wl ∈ W, wl.width = w → VW w wl) :
    allVW w (optimize_and_filter w B W) ∧
    (optimize_and_filter w B W).Pairwise (fun a b => a.broadcast < b.addr) ∧
    (∀ a, coveredB (optimize_and_filter w B W) a =
      (coveredB B a && !coveredB (W.filter (fun wl => wl.width == w)) a)) ∧
    collapse_addresses w (optimize_and_filter w B W) =
      optimize_and_filter w B W := by
  obtain ⟨c1, c2, c3, c4⟩ := collapse_master hB
  have hopt : optimize_and_filter w B W =
      collapse_addresses w ((collapse_addresses w B).flatMap (processNet W)) := by
    rw [optimize_and_filter, map_flatten_eq_flatMap]
  have hPv : ∀ b ∈ collapse_addresses w B, allVW w (processNet W b) := by
    intro b hb
    have hb1 : allVW w [b] := by
      intro m hm
      rw [List.mem_singleton.mp hm]
      exact c1 b hb
    exact (foldWl_master W hW [b] hb1).1
  have hPc : ∀ b ∈ collapse_addresses w B, ∀ a, coveredB (processNet W b) a =
      (memB a b && !coveredB (W.filter (fun wl => wl.width == w)) a) := by
    intro b hb a
    have hb1 : allVW w [b] := by
      intro m hm
      rw [List.mem_singleton.mp hm]
      exact c1 b hb
    have h2 := (foldWl_master W hW [b] hb1).2 a
    have hpn : processNet W b = W.foldl stepWl [b] := rfl
    rw [hpn, h2, coveredB_cons, coveredB_nil]
    cases memB a b <;> rfl
  have hFv : allVW w ((collapse_addresses w B).flatMap (processNet W)) := by
    intro n hn
    obtain ⟨b, hb, hnb⟩ := List.mem_flatMap.mp hn
    exact hPv b hb n hnb
  have hFcov : ∀ a,
      coveredB ((collapse_addresses w B).flatMap (processNet W)) a =
      (coveredB B a && !coveredB (W.filter (fun wl => wl.width == w)) a) := by
    intro a
    rw [← c3 a]
    cases hwf : coveredB (W.filter (fun wl => wl.width == w)) a
    · rw [Bool.eq_iff_iff]
      constructor
      · intro h
        obtain ⟨b, hb, hcb⟩ := (coveredB_flatMap _ _ a).mp h
        rw [hPc b hb a, hwf] at hcb
        have hm : memB a b = true := by
          cases hmb : memB a b
          · rw [hmb] at hcb
            exact absurd hcb (by decide)
          · rfl
        have hc : coveredB (collapse_addresses w B) a = true :=
          (coveredB_iff _ _).mpr ⟨b, hb, hm⟩
        rw [hc]
        rfl
      · intro h
        have hc : coveredB (collapse_addresses w B) a = true := by
          cases hca : coveredB (collapse_addresses w B) a
          · rw [hca] at h
            exact absurd h (by decide)
          · rfl
        obtain ⟨b, hb, hm⟩ := (coveredB_iff _ _).mp hc
        refine (coveredB_flatMap _ _ a).mpr ⟨b, hb, ?_⟩
        rw [hPc b hb a, hwf, hm]
        rfl
    · have hnone :
          coveredB ((collapse_addresses w B).flatMap (processNet W)) a
            = false := by
        cases hfa : coveredB ((collapse_addresses w B).flatMap (processNet W)) a
        · rfl
        · obtain ⟨b, hb, hcb⟩ := (coveredB_flatMap _ _ a).mp hfa
          rw [hPc b hb a, hwf] at hcb
          exact absurd hcb (by cases memB a b <;> decide)
      rw [hnone]
      cases coveredB (collapse_addresses w B) a <;> rfl
  rw [hopt]
  obtain ⟨f1, f2, f3, f4⟩ := collapse_master hFv
  refine ⟨f1, f2, ?_, collapse_idem hFv⟩
  intro a
  rw [f3 a, hFcov a]

/-! ## The classifier as containment in registry ranges -/

theorem is_safe_ip_eq (n : Network) :
    is_safe_ip n = !(n.is_private || n.is_loopback || n.is_link_local ||
      n.is_multicast || n.is_reserved || startsWithZeroDot n) := by
  rw [is_safe_ip]
  cases n.is_private <;> cases n.is_loopback <;> cases n.is_link_local <;>
    cases n.is_multicast <;> cases n.is_reserved <;>
    cases startsWithZeroDot n <;> rfl

theorem endpoints_iff_subset {n r : Network} (hr : r.width = 32) :
    (r.containsAddr 32 n.addr && r.containsAddr 32 n.broadcast) = true ↔
      SubsetN n r := by
  rw [subsetN_iff]
  have hab := addr_le_broadcast n
  simp only [Network.containsAddr, Bool.and_eq_true, beq_iff_eq,
    decide_eq_true_eq]
  constructor
  · intro h
    exact ⟨h.1.1.2, h.2.2⟩
  · intro h
    obtain ⟨h1, h2⟩ := h
    exact ⟨⟨⟨hr, h1⟩, by omega⟩, ⟨⟨hr, by omega⟩, h2⟩⟩

theorem is_private_iff {n : Network} :
    n.is_private = true ↔ ∃ r ∈ ipv4PrivateNetworks, SubsetN n r := by
  have hreg : ∀ r ∈ ipv4PrivateNetworks, r.width = 32 := by decide
  rw [Network.is_private, List.any_eq_true]
  constructor
  · rintro ⟨r, hr, hb⟩
    exact ⟨r, hr, (endpoints_iff_subset (hreg r hr)).mp hb⟩
  · rintro ⟨r, hr, hs⟩
    exact ⟨r, hr, (endpoints_iff_subset (hreg r hr)).mpr hs⟩

/-! ## The claims -/

/-- C1: for every collapsed blocklist `B` and whitelist `W` of the same
address family, the whitelist excluder returns exactly the address space of
`B` minus the address space of `W`: no output address is covered by any
whitelist entry, every address of `B` not covered by `W` appears in the
output, and the result is a disjoint, re-collapsed (collapse fixed point)
set. -/
theorem C1_whitelist_excluder_exact {w : Nat} {B W : List Network}
    (hB : allVW w B) (hBc : collapse_addresses w B = B) (hW : allVW w W) :
    (∀ a, coveredB W a = true →
      coveredB (optimize_and_filter w B W) a = false) ∧
    (∀ a, coveredB B a = true → coveredB W a = false →
      coveredB (optimize_and_filter w B W) a = true) ∧
    (∀ a, coveredB (optimize_and_filter w B W) a =
      (coveredB B a && !coveredB W a)) ∧
    (optimize_and_filter w B W).Pairwise DisjointN ∧
    collapse_addresses w (optimize_and_filter w B W) =
      optimize_and_filter w B W := by
  have _hkeep := hBc
  obtain ⟨o1, o2, o3, o4⟩ := optimize_master hB (fun wl hwl _ => hW wl hwl)
  rw [filter_width_eq hW] at o3
  refine ⟨?_, ?_, o3, pairwise_disjoint_of_brdlt o2, o4⟩
  · intro a hwa
    rw [o3 a, hwa]
    cases coveredB B a <;> rfl
  · intro a hba hwa
    rw [o3 a, hba, hwa]
    rfl

theorem C1_whitelist_excluder_exact_witness :
    (∀ a, coveredB [net4 10 0 0 0 9] a = true →
      coveredB (optimize_and_filter 32 [net4 10 0 0 0 8] [net4 10 0 0 0 9]) a
        = false) ∧
    (∀ a, coveredB [net4 10 0 0 0 8] a = true →
      coveredB [net4 10 0 0 0 9] a = false →
      coveredB (optimize_and_filter 32 [net4 10 0 0 0 8] [net4 10 0 0 0 9]) a
        = true) ∧
    (∀ a, coveredB (optimize_and_filter 32 [net4 10 0 0 0 8]
        [net4 10 0 0 0 9]) a =
      (coveredB [net4 10 0 0 0 8] a && !coveredB [net4 10 0 0 0 9] a)) ∧
    (optimize_and_filter 32 [net4 10 0 0 0 8]
      [net4 10 0 0 0 9]).Pairwise DisjointN ∧
    collapse_addresses 32 (optimize_and_filter 32 [net4 10 0 0 0 8]
        [net4 10 0 0 0 9]) =
      optimize_and_filter 32 [net4 10 0 0 0 8] [net4 10 0 0 0 9] :=
  C1_whitelist_excluder_exact (by decide) (by decide) (by decide)

/-- C2: the collapser is idempotent — re-running `collapse_addresses` on its
own output yields the identical list, for every single-family input. -/
theorem C2_collapser_idempotent {w : Nat} {xs : List Network}
    (hv : allVW w xs) :
    collapse_addresses w (collapse_addresses w xs) =
      collapse_addresses w xs :=
  collapse_idem hv

theorem C2_collapser_idempotent_witness :
    collapse_addresses 32 (collapse_addresses 32
      [net4 10 0 0 0 25, net4 10 0 0 128 25, net4 10 0 0 0 24]) =
    collapse_addresses 32
      [net4 10 0 0 0 25, net4 10 0 0 128 25, net4 10 0 0 0 24] :=
  C2_collapser_idempotent (by decide)

/-- C3: the whitelist excluder's output is identical under every permutation
of the blocklist iteration order and every permutation of the whitelist
iteration order, for a fixed single-family blocklist and a whitelist of
canonical networks of either family. -/
theorem C3_order_independence {w : Nat} {B B' W W' : List Network}
    (hB : allVW w B) (hW : ∀ wl ∈ W, wl.validB = true)
    (hpB : B.Perm B') (hpW : W.Perm W') :
    optimize_and_filter w B W = optimize_and_filter w B' W' := by
  have hB' : allVW w B' := allVW_of_perm hpB hB
  have hWc : ∀ wl ∈ W, wl.width = w → VW w wl :=
    fun wl hwl hww => ⟨hW wl hwl, hww⟩
  have hWc' : ∀ wl ∈ W', wl.width = w → VW w wl :=
    fun wl hwl hww => ⟨hW wl (hpW.mem_iff.mpr hwl), hww⟩
  obtain ⟨o1, o2, o3, o4⟩ := optimize_master hB hWc
  obtain ⟨p1, p2, p3, p4⟩ := optimize_master hB' hWc'
  have hcov : ∀ a, coveredB (optimize_and_filter w B W) a =
      coveredB (optimize_and_filter w B' W') a := by
    intro a
    rw [o3 a, p3 a, coveredB_perm hpB a,
      coveredB_perm (hpW.filter (fun wl => wl.width == w)) a]
  calc optimize_and_filter w B W
      = collapse_addresses w (optimize_and_filter w B W) := o4.symm
    _ = collapse_addresses w (optimize_and_filter w B' W') :=
        collapse_canonical o1 p1 hcov
    _ = optimize_and_filter w B' W' := p4

theorem C3_order_independence_witness :
    optimize_and_filter 32 [net4 1 2 3 0 24, net4 9 9 9 9 32]
        [net4 10 0 0 0 9, ⟨128, 1, 128⟩] =
      optimize_and_filter 32 [net4 9 9 9 9 32, net4 1 2 3 0 24]
        [⟨128, 1, 128⟩, net4 10 0 0 0 9] :=
  C3_order_independence (by decide) (by decide)
    (List.Perm.swap (net4 9 9 9 9 32) (net4 1 2 3 0 24) [])
    (List.Perm.swap (⟨128, 1, 128⟩ : Network) (net4 10 0 0 0 9) [])

/-- C4: for every single-family collection (duplicates and overlaps
allowed), the collapser returns a disjoint cover of exactly the same
address space with no fewer-network cover of that space existing — sibling
halves are merged into their parent, in particular `10.0.0.0/25` and
`10.0.0.128/25` collapse to exactly `10.0.0.0/24`. -/
theorem C4_collapser_minimal_cover {w : Nat} {xs : List Network}
    (hv : allVW w xs) :
    (∀ a, coveredB (collapse_addresses w xs) a = coveredB xs a) ∧
    (∀ m ∈ collapse_addresses w xs, ∀ n ∈ collapse_addresses w xs,
      m ≠ n → DisjointN m n) ∧
    (∀ ys, allVW w ys → (∀ m ∈ ys, ∀ n ∈ ys, m ≠ n → DisjointN m n) →
      (∀ a, coveredB ys a = coveredB xs a) →
      (collapse_addresses w xs).length ≤ ys.length) ∧
    collapse_addresses 32 [net4 10 0 0 0 25, net4 10 0 0 128 25] =
      [net4 10 0 0 0 24] := by
  obtain ⟨c1, c2, c3, c4⟩ := collapse_master hv
  refine ⟨c3, pairwise_forall_disjoint (pairwise_disjoint_of_brdlt c2),
    ?_, by decide⟩
  intro ys hys hdis hcov
  exact collapse_minimal hv hys hdis hcov

theorem C4_collapser_minimal_cover_witness :
    (∀ a, coveredB (collapse_addresses 32
        [net4 10 0 0 0 24, net4 10 0 0 0 24, net4 10 0 0 0 25]) a =
      coveredB [net4 10 0 0 0 24, net4 10 0 0 0 24, net4 10 0 0 0 25] a) ∧
    (∀ m ∈ collapse_addresses 32
        [net4 10 0 0 0 24, net4 10 0 0 0 24, net4 10 0 0 0 25],
      ∀ n ∈ collapse_addresses 32
        [net4 10 0 0 0 24, net4 10 0 0 0 24, net4 10 0 0 0 25],
      m ≠ n → DisjointN m n) ∧
    (∀ ys, allVW 32 ys → (∀ m ∈ ys, ∀ n ∈ ys, m ≠ n → DisjointN m n) →
      (∀ a, coveredB ys a =
        coveredB [net4 10 0 0 0 24, net4 10 0 0 0 24, net4 10 0 0 0 25] a) →
      (collapse_addresses 32
        [net4 10 0 0 0 24, net4 10 0 0 0 24, net4 10 0 0 0 25]).length ≤
          ys.length) ∧
    collapse_addresses 32 [net4 10 0 0 0 25, net4 10 0 0 128 25] =
      [net4 10 0 0 0 24] :=
  C4_collapser_minimal_cover (by decide)

set_option maxRecDepth 4000 in
/-- C5: if the total count of cleaned networks across both families is below
`MIN_IPS = 200`, the pipeline rejects the run and hands no output sets to
the sink (the accepted outcome is impossible); in particular a cleaned
count of 150 against threshold 200 is rejected. -/
theorem C5_safety_brake_rejects {v4 v6 : List Network}
    (h : v4.length + v6.length < MIN_IPS) :
    safetyBrake v4 v6 =
      PipelineResult.rejectedBelowThreshold (v4.length + v6.length)
        MIN_IPS ∧
    (∀ a b, safetyBrake v4 v6 ≠ PipelineResult.accepted a b) ∧
    safetyBrake (List.replicate 150 (⟨32, 0, 32⟩ : Network)) [] =
      PipelineResult.rejectedBelowThreshold 150 200 := by
  have h1 : safetyBrake v4 v6 =
      PipelineResult.rejectedBelowThreshold (v4.length + v6.length)
        MIN_IPS := by
    rw [safetyBrake, if_pos h]
  refine ⟨h1, ?_, by decide⟩
  intro a b hab
  rw [h1] at hab
  simp at hab

set_option maxRecDepth 4000 in
theorem C5_safety_brake_rejects_witness :
    (List.replicate 150 (⟨32, 0, 32⟩ : Network)).length +
      ([] : List Network).length < MIN_IPS ∧
    safetyBrake (List.replicate 150 (⟨32, 0, 32⟩ : Network)) [] =
      PipelineResult.rejectedBelowThreshold
        ((List.replicate 150 (⟨32, 0, 32⟩ : Network)).length +
          ([] : List Network).length) MIN_IPS :=
  ⟨by decide, (C5_safety_brake_rejects (by decide)).1⟩

/-- C7 (amended, scoped to IPv4): for IPv4 networks the classifier's
rejection test is containment, not intersection — `is_safe_ip` returns
`false` exactly for the width-32 networks wholly contained in a single
private/loopback/link-local/multicast/reserved IPv4 registry range, or
whose textual form starts with `"0."`; an IPv4 network that merely
intersects (even strictly contains) such a range without lying inside one
is classified safe.  The IPv4 scope is part of the amended claim: the
IPv6 side of the classifier also refutes the original intersection
reading, but admits no single-range containment characterization — the
IPv6 reserved registry is a list of several ranges, and the endpoint
tests of `_BaseNetwork.is_reserved` accept a network such as `4000::/2`
whose two endpoints lie in the *different* reserved ranges `4000::/3` and
`6000::/3`, so that network is rejected although it is contained in no
single registry range. -/
theorem C7_classifier_rejects_only_contained {n : Network}
    (hn : n.width = 32) :
    is_safe_ip n = false ↔
      ((∃ r ∈ rejectRegistry, SubsetN n r) ∨
        startsWithZeroDot n = true) := by
  have _hkeep := hn
  rw [is_safe_ip_eq]
  have hbig : ∀ b : Bool, ((!b) = false ↔ b = true) := by decide
  rw [hbig]
  simp only [Bool.or_eq_true]
  constructor
  · rintro (((((hp | hl) | hll) | hm) | hr) | hz)
    · obtain ⟨r, hrm, hs⟩ := is_private_iff.mp hp
      exact Or.inl ⟨r, List.mem_append.mpr (Or.inl hrm), hs⟩
    · rw [Network.is_loopback] at hl
      exact Or.inl ⟨ipv4LoopbackNetwork, (by decide),
        (endpoints_iff_subset (by decide)).mp hl⟩
    · rw [Network.is_link_local] at hll
      exact Or.inl ⟨ipv4LinkLocalNetwork, (by decide),
        (endpoints_iff_subset (by decide)).mp hll⟩
    · rw [Network.is_multicast] at hm
      exact Or.inl ⟨ipv4MulticastNetwork, (by decide),
        (endpoints_iff_subset (by decide)).mp hm⟩
    · rw [Network.is_reserved] at hr
      exact Or.inl ⟨ipv4ReservedNetwork, (by decide),
        (endpoints_iff_subset (by decide)).mp hr⟩
    · exact Or.inr hz
  · rintro (⟨r, hrm, hs⟩ | hz)
    · rcases List.mem_append.mp hrm with hpriv | hrest
      · exact Or.inl (Or.inl (Or.inl (Or.inl (Or.inl
          (is_private_iff.mpr ⟨r, hpriv, hs⟩)))))
      · simp only [List.mem_cons, List.not_mem_nil, or_false] at hrest
        rcases hrest with rfl | rfl | rfl | rfl
        · refine Or.inl (Or.inl (Or.inl (Or.inl (Or.inr ?_))))
          rw [Network.is_loopback]
          exact (endpoints_iff_subset (by decide)).mpr hs
        · refine Or.inl (Or.inl (Or.inl (Or.inr ?_)))
          rw [Network.is_link_local]
          exact (endpoints_iff_subset (by decide)).mpr hs
        · refine Or.inl (Or.inl (Or.inr ?_))
          rw [Network.is_multicast]
          exact (endpoints_iff_subset (by decide)).mpr hs
        · refine Or.inl (Or.inr ?_)
          rw [Network.is_reserved]
          exact (endpoints_iff_subset (by decide)).mpr hs
    · exact Or.inr hz

theorem C7_classifier_rejects_only_contained_witness :
    (net4 10 0 0 0 8).width = 32 ∧
    (is_safe_ip (net4 10 0 0 0 8) = false ↔
      ((∃ r ∈ rejectRegistry, SubsetN (net4 10 0 0 0 8) r) ∨
        startsWithZeroDot (net4 10 0 0 0 8) = true)) :=
  ⟨by decide, C7_classifier_rejects_only_contained (by decide)⟩

/-- C7 counterexample to the claim as stated: `8.0.0.0/5` strictly contains
the private registry network `10.0.0.0/8` — so it intersects private-use
address space — yet `is_safe_ip` classifies it as safe. -/
theorem C7_counterexample_contains_private_yet_safe :
    (net4 8 0 0 0 5).supernet_of (net4 10 0 0 0 8) = true ∧
    net4 10 0 0 0 8 ∈ ipv4PrivateNetworks ∧
    (net4 8 0 0 0 5).overlaps (net4 10 0 0 0 8) = true ∧
    is_safe_ip (net4 8 0 0 0 5) = true := by
  decide

/-- C8 (amended): a whitelist network of a *different* address family never
overlaps a candidate, so the candidate fragment is kept verbatim — not
dropped. The family-mismatch case never reaches the subdivision (and its
`except ValueError` drop arm): exclusion fails *open* toward keeping the
candidate, contrary to the claimed fail-safe drop. -/
theorem C8_family_mismatch_keeps_candidate {w : Nat} {cands : List Network}
    {wl cand : Network} (hv : allVW w cands) (hnw : wl.width ≠ w)
    (hnc : wl.width ≠ cand.width) :
    excludeCandidate wl cand = [cand] ∧ stepWl cands wl = cands :=
  ⟨excludeCandidate_other_family hnc, stepWl_other_family hv hnw⟩

theorem C8_family_mismatch_keeps_candidate_witness :
    excludeCandidate ⟨128, 1, 128⟩ (net4 1 2 3 0 24) = [net4 1 2 3 0 24] ∧
    stepWl [net4 1 2 3 0 24] ⟨128, 1, 128⟩ = [net4 1 2 3 0 24] :=
  C8_family_mismatch_keeps_candidate (w := 32) (by decide) (by decide)
    (by decide)

/-- C8 counterexample to the claim as stated: against a whitelist consisting
only of the IPv6 network `::1/128` (a family mismatch with every IPv4
candidate), the candidate `1.2.3.0/24` survives to the output unchanged —
it is kept, not dropped. -/
theorem C8_counterexample_kept_not_dropped :
    (⟨128, 1, 128⟩ : Network).width ≠ (net4 1 2 3 0 24).width ∧
    optimize_and_filter 32 [net4 1 2 3 0 24] [⟨128, 1, 128⟩] =
      [net4 1 2 3 0 24] := by
  decide

/-- C10: in the per-candidate loop, for same-family canonical candidate and
whitelist networks that overlap, with the whitelist network neither equal
to nor a supernet of the candidate, the candidate strictly contains the
whitelist network; hence `address_exclude` succeeds (returns `some`) and
the `ValueError` fallback branch is unreachable under this precondition. -/
theorem C10_exclude_always_succeeds {w : Nat} {cand wl : Network}
    (hc : VW w cand) (hw : VW w wl) (hov : cand.overlaps wl = true)
    (hns : wl.supernet_of cand = false) (hne : wl ≠ cand) :
    SubsetN wl cand ∧ wl ≠ cand ∧
      ∃ l, cand.address_exclude wl = some l := by
  obtain ⟨x, hx1, hx2⟩ := (overlaps_iff hc hw).mp hov
  rcases nested_or_disjoint hc hw hx1 hx2 with hs | hs
  · exact absurd ((supernet_of_iff hw hc).mpr hs) (by simp [hns])
  · obtain ⟨l, hl, _, _⟩ := address_exclude_master hc hw hs hne
    exact ⟨hs, hne, l, hl⟩

theorem C10_exclude_always_succeeds_witness :
    SubsetN (net4 10 0 0 0 25) (net4 10 0 0 0 24) ∧
    net4 10 0 0 0 25 ≠ net4 10 0 0 0 24 ∧
    (∃ l, (net4 10 0 0 0 24).address_exclude (net4 10 0 0 0 25) = some l) :=
  C10_exclude_always_succeeds (w := 32) (by decide) (by decide) (by decide)
    (by decide) (by decide)

/-- C9 (amended): only `cs-import.py` implements the DShield three-column
rule. For a line whose cleaned form splits into at least three whitespace
columns with an all-digit third column of value at most 32 and a column 1
that parses as an IPv4 network: the `cs-import.py` parser invoked for the
DShield source builds the network from column 1 with the prefix length
from column 3 (column 2 ignored); the same parser for any other source,
and the `import-blocklists.py` parser for *every* source (DShield
included), parse column 1 only. The regex fallback scan applies when
column 1 is not a valid network, as on the URL line shown in the last
conjunct. -/
theorem C9_dshield_rule_only_cs {raw p0 p1 p2 : List Char}
    {rest : List (List Char)} {A : Nat} {n0 : Network}
    (hsplit : pySplitWs (cleanLine raw) = p0 :: p1 :: p2 :: rest)
    (hp2 : p2 ≠ [] ∧ p2.all isDigitC = true) (hple : natOfDigits p2 ≤ 32)
    (hA : parseIPv4Addr p0 = some A) (hn0 : ip_network_v4 p0 = some n0) :
    parse_line_cs true raw =
      some ⟨32, A - A % 2 ^ (32 - natOfDigits p2), natOfDigits p2⟩ ∧
    parse_line_cs false raw = some n0 ∧
    parse_line_ib raw = some n0 ∧
    parse_line_ib ("http://1.2.3.4/path bad".toList) =
      some (net4 1 2 3 4 32) := by
  have hnil : pySplitWs ([] : List Char) = [] := rfl
  have hne : cleanLine raw ≠ [] := by
    intro h
    rw [h, hnil] at hsplit
    exact List.noConfusion hsplit
  have hdn : dshieldNet (p0 :: p1 :: p2 :: rest) =
      some ⟨32, A - A % 2 ^ (32 - natOfDigits p2), natOfDigits p2⟩ := by
    rw [show dshieldNet (p0 :: p1 :: p2 :: rest) =
      (if p2 ≠ [] ∧ p2.all isDigitC then
        (if natOfDigits p2 ≤ 32 then
          (parseIPv4Addr p0).map
            (fun a =>
              (⟨32, a - a % 2 ^ (32 - natOfDigits p2), natOfDigits p2⟩ :
                Network))
        else none)
      else none) from rfl, if_pos hp2, if_pos hple, hA]
    rfl
  have hstd : parse_line_std (cleanLine raw) = some n0 := by
    have h0 : parse_line_std (cleanLine raw) =
        match (pySplitWs (cleanLine raw)).head? with
        | none => none
        | some token =>
          match ip_network_v4 token with
          | some net => some net
          | none =>
            match searchQuad (cleanLine raw) with
            | some quad => ip_network_v4 quad
            | none => none := rfl
    rw [h0, hsplit, List.head?_cons]
    show (match ip_network_v4 p0 with
      | some net => some net
      | none =>
        match searchQuad (cleanLine raw) with
        | some quad => ip_network_v4 quad
        | none => none) = some n0
    rw [hn0]
  refine ⟨?_, ?_, ?_, by decide⟩
  · rw [show parse_line_cs true raw =
      (if cleanLine raw = [] then none
       else match dshieldNet (pySplitWs (cleanLine raw)) with
        | some net => some net
        | none => parse_line_std (cleanLine raw)) from rfl,
      if_neg hne, hsplit, hdn]
  · rw [show parse_line_cs false raw =
      (if cleanLine raw = [] then none
       else parse_line_std (cleanLine raw)) from rfl, if_neg hne]
    exact hstd
  · rw [show parse_line_ib raw =
      (if cleanLine raw = [] then none
       else parse_line_std (cleanLine raw)) from rfl, if_neg hne]
    exact hstd

theorem C9_dshield_rule_only_cs_witness :
    parse_line_cs true ("1.0.0.0 1.0.0.255 24".toList) =
      some (net4 1 0 0 0 24) ∧
    parse_line_cs false ("1.0.0.0 1.0.0.255 24".toList) =
      some (net4 1 0 0 0 32) ∧
    parse_line_ib ("1.0.0.0 1.0.0.255 24".toList) =
      some (net4 1 0 0 0 32) ∧
    parse_line_ib ("http://1.2.3.4/path bad".toList) =
      some (net4 1 2 3 4 32) :=
  @C9_dshield_rule_only_cs ("1.0.0.0 1.0.0.255 24".toList)
    ("1.0.0.0".toList) ("1.0.0.255".toList) ("24".toList) []
    (ipv4 1 0 0 0) (net4 1 0 0 0 32)
    (by decide) (by decide) (by decide) (by decide) (by decide)

/-- C9 counterexample to the claim as stated: on the DShield-format line
`"1.0.0.0 1.0.0.255 24"`, the `import-blocklists.py` parser does *not*
apply the three-column rule — it parses column 1 only, yielding
`1.0.0.0/32` — while the `cs-import.py` parser for the DShield source
yields `1.0.0.0/24`; the two parsers disagree on the same line. -/
theorem C9_counterexample_ib_ignores_third_column :
    parse_line_ib ("1.0.0.0 1.0.0.255 24".toList) = some (net4 1 0 0 0 32) ∧
    parse_line_cs true ("1.0.0.0 1.0.0.255 24".toList) =
      some (net4 1 0 0 0 24) ∧
    parse_line_ib ("1.0.0.0 1.0.0.255 24".toList) ≠
      parse_line_cs true ("1.0.0.0 1.0.0.255 24".toList) := by
  decide
